import Mathlib

/-!
Verification of the candles aggregator (aggregator/aggregator.go).

The Go code is shallowly embedded: Go maps become association lists whose
list order models the (arbitrary) map iteration order, IEEE-754 doubles are
modelled as exact rationals, and `strconv.ParseFloat` / `strconv.FormatFloat`
are modelled on the decimal fragment the program exercises.  Rational
arithmetic in executable positions is phrased through `mkRat` (with bridge
lemmas to the ordinary field operations) so that every definition evaluates
by kernel reduction.
-/

namespace Candles

/-- Addition on ℚ phrased through `mkRat` so that it evaluates by kernel
reduction; `qadd_eq` identifies it with ordinary addition. -/
def qadd (a b : ℚ) : ℚ := mkRat (a.num * b.den + b.num * a.den) (a.den * b.den)

/-- Negation on ℚ phrased through `mkRat`; `qneg_eq` identifies it with
ordinary negation. -/
def qneg (a : ℚ) : ℚ := mkRat (-a.num) a.den

/-- model/candle/candle.go: the domain Candle struct.  Decimal numeric fields
are carried as strings, exactly as in the source. -/
structure Candle where
  Exchange  : String
  Symbol    : String
  Interval  : String
  OpenTime  : Int
  Open      : String
  High      : String
  Low       : String
  Close     : String
  Volume    : String
  CloseTime : Int
  IsClosed  : Bool
deriving DecidableEq, Repr

/-- The Go zero value of candle.Candle. -/
def Candle.zero : Candle :=
  ⟨"", "", "", 0, "", "", "", "", "", 0, false⟩

/-- Numeric value of a run of decimal digit characters. -/
def digitsToNat (l : List Char) : ℕ :=
  l.foldl (fun a ch => 10 * a + (ch.toNat - 48)) 0

/-- Mantissa parser: digits with an optional single decimal point, at least
one digit overall (`strconv.ParseFloat` accepts "5.", ".5" but not "." or ""). -/
def parseMantissa (l : List Char) : Option ℚ :=
  let ip := l.takeWhile Char.isDigit
  let rest := l.dropWhile Char.isDigit
  match rest with
  | [] => if ip.isEmpty then none else some (mkRat (digitsToNat ip) 1)
  | '.' :: frac =>
      if frac.all Char.isDigit && (!ip.isEmpty || !frac.isEmpty) then
        some (mkRat (digitsToNat ip * 10 ^ frac.length + digitsToNat frac) (10 ^ frac.length))
      else none
  | _ => none

/-- Model of `strconv.ParseFloat(s, 64)` on the plain decimal fragment
(optional sign, digits, optional fraction); the double is modelled as an
exact rational.  `none` models a parse error. -/
def parseFloat (s : String) : Option ℚ :=
  match s.data with
  | '-' :: rest => (parseMantissa rest).map qneg
  | '+' :: rest => parseMantissa rest
  | l => parseMantissa l

/-- Value used by the Go code, which ignores the error return of
`strconv.ParseFloat`: a failed parse yields 0. -/
def parseF0 (s : String) : ℚ :=
  (parseFloat s).getD 0

/-- Smallest exponent k with d ∣ 10^k (for printing a terminating decimal). -/
def decExp (d : ℕ) : ℕ :=
  (((List.range 40).find? (fun k => decide (d ∣ 10 ^ k))).getD 0)

/-- Model of `strconv.FormatFloat(x, 'f', -1, 64)` for terminating decimals:
the shortest plain decimal representation, no exponent, no trailing zeros. -/
def formatRat (q : ℚ) : String :=
  let sign := if q < 0 then "-" else ""
  let n := q.num.natAbs
  let d := q.den
  let k := decExp d
  let scaled := n * 10 ^ k / d
  let ip := scaled / 10 ^ k
  let fp := scaled % 10 ^ k
  if k = 0 then sign ++ toString ip
  else
    let fs := toString fp
    sign ++ toString ip ++ "." ++ String.mk (List.replicate (k - fs.length) '0') ++ fs

/-- Accumulator of merge's loop: the partially built candle plus the running
parsed max-high, min-low and volume sum (Go locals agg, maxH, minL, sumVol). -/
structure MergeAcc where
  agg  : Candle
  maxH : ℚ
  minL : ℚ
  sumV : ℚ

/-- One non-first iteration of merge's loop over perExchange
(aggregator.go merge, loop body after the `first` branch). -/
def mergeStep (acc : MergeAcc) (ec : String × Candle) : MergeAcc :=
  let c := ec.2
  let h := parseF0 c.High
  let l := parseF0 c.Low
  let v := parseF0 c.Volume
  { agg := { acc.agg with
      High := if acc.maxH < h then c.High else acc.agg.High,
      Low := if l < acc.minL then c.Low else acc.agg.Low,
      Close := c.Close },
    maxH := if acc.maxH < h then h else acc.maxH,
    minL := if l < acc.minL then l else acc.minL,
    sumV := if 0 < v then qadd acc.sumV v else acc.sumV }

/-- aggregator.go merge: combines per-exchange candles into one aggregated
candle.  The association list order models Go map iteration order; the first
element plays the `first` iteration, the remainder runs `mergeStep`. -/
def merge (perEx : List (String × Candle)) : Candle :=
  match perEx with
  | [] => { Candle.zero with Volume := formatRat 0, IsClosed := false }
  | (_, c0) :: rest =>
    let acc0 : MergeAcc :=
      ⟨{ c0 with Exchange := "aggregated" },
       parseF0 c0.High, parseF0 c0.Low, parseF0 c0.Volume⟩
    let accF := rest.foldl mergeStep acc0
    { accF.agg with Volume := formatRat accF.sumV, IsClosed := false }

/-- Insert into a string-keyed association list, replacing an existing
binding or appending a fresh one (model of a Go map store `m[k] = v`). -/
def updateAssocS {β : Type} (l : List (String × β)) (k : String) (v : β) :
    List (String × β) :=
  if l.any (fun e => e.1 == k) then
    l.map (fun e => if e.1 == k then (k, v) else e)
  else l ++ [(k, v)]

/-- Insert into an Int-keyed association list, replacing an existing binding
or appending a fresh one (model of a Go map store `m[k] = v`). -/
def updateAssocI {β : Type} (l : List (Int × β)) (k : Int) (v : β) :
    List (Int × β) :=
  if l.any (fun e => e.1 == k) then
    l.map (fun e => if e.1 == k then (k, v) else e)
  else l ++ [(k, v)]

/-- Lookup in an Int-keyed association list. -/
def lookupI {β : Type} (l : List (Int × β)) (k : Int) : Option β :=
  match l.find? (fun e => e.1 == k) with
  | some e => some e.2
  | none => none

/-- Insert into a string set represented as a duplicate-free list (model of a
Go `map[string]struct\x7b\x7d` store). -/
def insertStr (l : List String) (e : String) : List String :=
  if l.contains e then l else l ++ [e]

/-- aggregator.go MaxRequestLimit: target buffer size after a resize. -/
def MaxRequestLimit : ℕ := 365

/-- aggregator.go pendingCandle: merged state of one time period across all
exchanges.  perExchange's list order models Go map iteration order; closedBy
is a duplicate-free list modelling a set of exchange ids. -/
structure PendingCandle where
  agg : Candle
  perExchange : List (String × Candle)
  closedBy : List String
deriving DecidableEq, Repr

/-- aggregator.go symState: runtime data for one "symbol:interval" key.
Handlers are modelled as opaque tags keyed by their registration id;
subscription tokens are opaque naturals. -/
structure SymState where
  setup : Bool
  setupErr : Option String
  tokens : List ℕ
  candles : List Candle
  pending : List (Int × PendingCandle)
  finalized : List Int
  handlers : List (ℕ × ℕ)
  nextID : ℕ
deriving DecidableEq, Repr

/-- aggregator.go getOrCreateState: the fresh symState made on first
Subscribe for a key (Go zero values and empty maps). -/
def initSymState : SymState :=
  ⟨false, none, [], [], [], [], [], 0⟩

/-- aggregator.go appendAndResize: append c to the buffer and trim to the
most recent `limit` entries once the length exceeds 2×limit. -/
def appendAndResize (candles : List Candle) (c : Candle) (limit : ℕ) :
    List Candle :=
  let cs := candles ++ [c]
  if cs.length > limit * 2 then cs.drop (cs.length - limit) else cs

/-- handleCandle step 2: the pending entries strictly older than the incoming
openTime, in pending-map iteration order (Go: the loop's matching entries). -/
def staleOf (pending : List (Int × PendingCandle)) (t : Int) :
    List (Int × PendingCandle) :=
  pending.filter (fun tp => decide (tp.1 < t))

/-- handleCandle step 2: the pending entries that survive the force-close. -/
def keepOf (pending : List (Int × PendingCandle)) (t : Int) :
    List (Int × PendingCandle) :=
  pending.filter (fun tp => !decide (tp.1 < t))

/-- handleCandle step 3: get or create the pending entry for this period
(Go: `p, ok := state.pending[openTime]`, fresh zero entry when absent). -/
def pendingAt (pending : List (Int × PendingCandle)) (t : Int) : PendingCandle :=
  (lookupI (keepOf pending t) t).getD ⟨Candle.zero, [], []⟩

/-- handleCandle step 4: the per-exchange map after storing this candle. -/
def perExNext (pending : List (Int × PendingCandle)) (c : Candle) :
    List (String × Candle) :=
  updateAssocS (pendingAt pending c.OpenTime).perExchange c.Exchange c

/-- handleCandle step 4: the closedBy set after recording this candle's
IsClosed flag. -/
def closedByNext (pending : List (Int × PendingCandle)) (c : Candle) :
    List String :=
  if c.IsClosed then insertStr (pendingAt pending c.OpenTime).closedBy c.Exchange
  else (pendingAt pending c.OpenTime).closedBy

/-- aggregator.go handleCandle: the finalization state machine, run for every
incoming exchange candle.  Returns the updated state together with the
to-publish list that is fanned out to every snapshotted handler after the
lock is released.  The state's pending list order models the arbitrary Go
map iteration order of step 2. -/
def handleCandle (numEx limit : ℕ) (s : SymState) (c : Candle) :
    SymState × List Candle :=
  if s.finalized.contains c.OpenTime then (s, [])
  else
    let forced := (staleOf s.pending c.OpenTime).map
      (fun tp => { tp.2.agg with IsClosed := true })
    let candles1 := forced.foldl (fun cs fc => appendAndResize cs fc limit) s.candles
    let finalized1 := s.finalized ++ (staleOf s.pending c.OpenTime).map (fun tp => tp.1)
    let agg := merge (perExNext s.pending c)
    if (closedByNext s.pending c).length = numEx then
      ({ s with candles := appendAndResize candles1 { agg with IsClosed := true } limit,
                pending := (keepOf s.pending c.OpenTime).filter
                  (fun tp => !(tp.1 == c.OpenTime)),
                finalized := finalized1 ++ [c.OpenTime] },
       forced ++ [{ agg with IsClosed := true }])
    else
      ({ s with candles := candles1,
                pending := updateAssocI (keepOf s.pending c.OpenTime) c.OpenTime
                  ⟨agg, perExNext s.pending c, closedByNext s.pending c⟩,
                finalized := finalized1 },
       forced ++ [agg])

/-- aggregator.go startExchangeSubs: subscribe to each exchange in order;
each exchange's Subscribe outcome is an element of subResults (a token id on
success).  On failure every token obtained so far is unsubscribed; the second
component of the result is the list of unsubscribed tokens, in order. -/
def startExchangeSubs (key : String) :
    List (Except String ℕ) → List ℕ → Except String (List ℕ) × List ℕ
  | [], tokens => (Except.ok tokens, [])
  | Except.error e :: _, tokens =>
      (Except.error ("aggregator [" ++ key ++ "]: " ++ e), tokens)
  | Except.ok tok :: rest, tokens => startExchangeSubs key rest (tokens ++ [tok])

/-- aggregator.go Aggregator.Subscribe, for one key's symState, sequentially:
register the handler, claim setup if needed, run the exchange subscriptions,
and on failure roll back.  Returns the new state, the handler-token id or the
error, and the list of upstream tokens that were unsubscribed during rollback. -/
def Subscribe (key : String) (s : SymState) (handlerTag : ℕ)
    (subResults : List (Except String ℕ)) :
    SymState × Except String ℕ × List ℕ :=
  let id := s.nextID
  let s1 := { s with nextID := s.nextID + 1, handlers := s.handlers ++ [(id, handlerTag)] }
  if s1.setup then
    match s1.setupErr with
    | some e =>
        ({ s1 with handlers := s1.handlers.filter (fun h => !(h.1 == id)) },
         Except.error e, [])
    | none => (s1, Except.ok id, [])
  else
    let s2 := { s1 with setup := true }
    match startExchangeSubs key subResults [] with
    | (Except.error e, unsub) =>
        ({ s2 with setup := false,
                   handlers := s2.handlers.filter (fun h => !(h.1 == id)),
                   setupErr := some e },
         Except.error e, unsub)
    | (Except.ok toks, unsub) =>
        ({ s2 with tokens := toks, setupErr := none }, Except.ok id, unsub)

/-- aggregator.go Backfill, grouping step: `groups[c.OpenTime][c.Exchange] = c`
(creating the inner map on first use). -/
def insertGroup (groups : List (Int × List (String × Candle))) (c : Candle) :
    List (Int × List (String × Candle)) :=
  if groups.any (fun g => g.1 == c.OpenTime) then
    groups.map (fun g =>
      if g.1 == c.OpenTime then (g.1, updateAssocS g.2 c.Exchange c) else g)
  else groups ++ [(c.OpenTime, [(c.Exchange, c)])]

/-- aggregator.go Backfill, collection loop: fetch each exchange's batch in
order, short-circuiting on the first error, and fold every candle into the
per-openTime groups. -/
def collectGroups :
    List (Except String (List Candle)) → List (Int × List (String × Candle)) →
    Except String (List (Int × List (String × Candle)))
  | [], acc => Except.ok acc
  | Except.error e :: _, _ => Except.error e
  | Except.ok batch :: rest, acc => collectGroups rest (batch.foldl insertGroup acc)

/-- aggregator.go Aggregator.Backfill: group all exchanges' historical candles
by openTime, sort the openTimes ascending, and merge each group with
IsClosed forced to true; any exchange failure fails the whole call. -/
def Backfill (symbol interval : String)
    (results : List (Except String (List Candle))) : Except String (List Candle) :=
  match collectGroups results [] with
  | Except.error e =>
      Except.error ("aggregator backfill [" ++ symbol ++ ":" ++ interval ++ "]: " ++ e)
  | Except.ok groups =>
      let times := List.insertionSort (fun a b => a ≤ b) (groups.map (fun g => g.1))
      Except.ok (times.map (fun t =>
        { merge ((lookupI groups t).getD []) with IsClosed := true }))

/-- aggregator.go Aggregator (the fields relevant to configuration) and New:
maxLimit defaults to MaxRequestLimit. -/
structure Aggregator where
  numEx : ℕ
  maxLimit : ℕ

/-- aggregator.go New. -/
def New (numEx : ℕ) : Aggregator := ⟨numEx, MaxRequestLimit⟩

/-- The concatenation of the successful per-exchange backfill batches, in
adapter order (the union the spec's backfill law groups over). -/
def okJoin (results : List (Except String (List Candle))) : List Candle :=
  results.foldr (fun r acc =>
    match r with
    | Except.ok batch => batch ++ acc
    | Except.error _ => acc) []

/-- Well-formedness of the backfill grouping map: keys are distinct, every
group is non-empty, and every candle in a group carries the group's openTime. -/
def GroupsWF (groups : List (Int × List (String × Candle))) : Prop :=
  (groups.map (fun g => g.1)).Nodup ∧
  ∀ g ∈ groups, g.2 ≠ [] ∧ ∀ e ∈ g.2, e.2.OpenTime = g.1

/-- Positive part of a rational, as summed by merge's loop for non-first
entries (`if v > 0`). -/
def posPart (v : ℚ) : ℚ := if 0 < v then v else 0

/-- Sum of the positive parsed volumes of a list of per-exchange entries. -/
def sumPos (l : List (String × Candle)) : ℚ :=
  (l.map (fun ec => posPart (parseF0 ec.2.Volume))).sum

/-- Maximum of the parsed highs of a non-empty entry list (0 for []). -/
def maxParsedHigh : List (String × Candle) → ℚ
  | [] => 0
  | e :: l => l.foldl (fun m ec => max m (parseF0 ec.2.High)) (parseF0 e.2.High)

/-- Minimum of the parsed lows of a non-empty entry list (0 for []). -/
def minParsedLow : List (String × Candle) → ℚ
  | [] => 0
  | e :: l => l.foldl (fun m ec => min m (parseF0 ec.2.Low)) (parseF0 e.2.Low)

/-- Modelled from the spec: "volume: sum of parsed non-negative volumes" —
the spec-side volume formula, for comparison with the source's merge. -/
def specNonnegVolumeSum (l : List (String × Candle)) : ℚ :=
  (l.map (fun ec =>
    let v := parseF0 ec.2.Volume
    if 0 ≤ v then v else 0)).sum

/-- A step of the aggregation state machine under an arbitrary Go map
iteration order: before handleCandle runs, the pending association list may
be reordered by any permutation. -/
inductive Step (numEx limit : ℕ) :
    SymState → Candle → SymState × List Candle → Prop where
  | mk (s : SymState) (pend : List (Int × PendingCandle)) (c : Candle)
      (hperm : s.pending.Perm pend) :
      Step numEx limit s c (handleCandle numEx limit { s with pending := pend } c)

/-- A run of the state machine over a sequence of incoming candles, with an
arbitrary pending-map iteration order at every step; accumulates the
concatenation of all to-publish lists (what downstream handlers observe). -/
inductive Run (numEx limit : ℕ) :
    SymState → List Candle → SymState → List Candle → Prop where
  | nil (s : SymState) : Run numEx limit s [] s []
  | cons (s : SymState) (c : Candle) (s₁ : SymState) (out : List Candle)
      (rest : List Candle) (s₂ : SymState) (outs : List Candle) :
      Step numEx limit s c (s₁, out) →
      Run numEx limit s₁ rest s₂ outs →
      Run numEx limit s (c :: rest) s₂ (out ++ outs)

/-- Watermark invariant of the aggregation state under non-decreasing
arrival openTimes: w is the largest openTime seen so far; at most one period
(w itself) is pending, it is not finalized, its merged agg and all its
per-exchange entries carry openTime w, and every finalized period is ≤ w. -/
def InvW (s : SymState) (w : Int) : Prop :=
  (s.pending = [] ∨ ∃ p, s.pending = [(w, p)] ∧ w ∉ s.finalized ∧
    p.agg.OpenTime = w ∧ p.perExchange ≠ [] ∧
    ∀ e ∈ p.perExchange, e.2.OpenTime = w) ∧
  ∀ t ∈ s.finalized, t ≤ w

/-- Candle literal used by the concrete witnesses and counterexamples. -/
def mkC (ex : String) (t : Int) (h l v : String) (closed : Bool) : Candle :=
  ⟨ex, "BTCUSDT", "1m", t, "10", h, l, "9.5", v, t + 59999, closed⟩

/-- First call of the C1 counterexample trace: exchange A, period 3000. -/
def cxRun1 : SymState × List Candle :=
  handleCandle 2 365 initSymState (mkC "A" 3000 "10" "9" "1" false)

/-- Second call of the C1 counterexample trace: exchange B, period 2000
(a legal interleaving: each source's own openTimes are monotone). -/
def cxRun2 : SymState × List Candle :=
  handleCandle 2 365 cxRun1.1 (mkC "B" 2000 "10" "9" "1" false)

/-- Third call of the C1 counterexample trace: exchange A, period 4000,
which force-closes the two pending periods in pending-map iteration order. -/
def cxRun3 : SymState × List Candle :=
  handleCandle 2 365 cxRun2.1 (mkC "A" 4000 "10" "9" "1" false)

/-- First call of the C1 witness trace (monotone arrivals). -/
def wRun1 : SymState × List Candle :=
  handleCandle 2 365 initSymState (mkC "A" 1000 "10" "9" "1" false)

/-- Second call of the C1 witness trace (monotone arrivals). -/
def wRun2 : SymState × List Candle :=
  handleCandle 2 365 wRun1.1 (mkC "A" 2000 "12" "11" "1" false)

/- ──────────────────────────── theorems ──────────────────────────── -/

theorem qadd_eq (a b : ℚ) : qadd a b = a + b := by
  unfold qadd
  rw [Rat.mkRat_eq_div]
  push_cast
  have ha : (a.den : ℚ) ≠ 0 := by exact_mod_cast a.den_nz
  have hb : (b.den : ℚ) ≠ 0 := by exact_mod_cast b.den_nz
  conv_rhs => rw [← Rat.num_div_den a, ← Rat.num_div_den b]
  rw [div_add_div _ _ ha hb]
  ring_nf

theorem qneg_eq (a : ℚ) : qneg a = -a := by
  unfold qneg
  rw [Rat.mkRat_eq_div]
  push_cast
  rw [neg_div, Rat.num_div_den]

example : parseFloat "12.5" = some (mkRat 25 2) := by decide
example : parseFloat "-0.25" = some (mkRat (-1) 4) := by decide
example : parseFloat "xyz" = none := by decide
example : parseFloat "" = none := by decide
example : formatRat (mkRat 25 2) = "12.5" := by decide
example : formatRat 0 = "0" := by decide
example : formatRat (mkRat (-1) 4) = "-0.25" := by decide

/- merge loop characterizations -/

theorem mergeStep_sumV (acc : MergeAcc) (ec : String × Candle) :
    (mergeStep acc ec).sumV = acc.sumV + posPart (parseF0 ec.2.Volume) := by
  unfold mergeStep posPart
  dsimp only
  split
  · rw [qadd_eq]
  · rw [add_zero]

theorem foldl_mergeStep_sumV (l : List (String × Candle)) (acc : MergeAcc) :
    (l.foldl mergeStep acc).sumV = acc.sumV + sumPos l := by
  induction l generalizing acc with
  | nil => simp [sumPos]
  | cons e rest ih =>
      rw [List.foldl_cons, ih, mergeStep_sumV]
      simp [sumPos, add_assoc]

theorem ite_lt_eq_max (a b : ℚ) : (if a < b then b else a) = max a b := by
  rcases le_or_lt b a with h | h
  · rw [if_neg (not_lt.2 h), max_eq_left h]
  · rw [if_pos h, max_eq_right h.le]

theorem ite_lt_eq_min (a b : ℚ) : (if b < a then b else a) = min a b := by
  rcases le_or_lt a b with h | h
  · rw [if_neg (not_lt.2 h), min_eq_left h]
  · rw [if_pos h, min_eq_right h.le]

theorem foldl_mergeStep_maxH (l : List (String × Candle)) (acc : MergeAcc) :
    (l.foldl mergeStep acc).maxH =
      l.foldl (fun m ec => max m (parseF0 ec.2.High)) acc.maxH := by
  induction l generalizing acc with
  | nil => rfl
  | cons e rest ih =>
      rw [List.foldl_cons, List.foldl_cons, ih]
      unfold mergeStep
      dsimp only
      rw [ite_lt_eq_max]

theorem foldl_mergeStep_minL (l : List (String × Candle)) (acc : MergeAcc) :
    (l.foldl mergeStep acc).minL =
      l.foldl (fun m ec => min m (parseF0 ec.2.Low)) acc.minL := by
  induction l generalizing acc with
  | nil => rfl
  | cons e rest ih =>
      rw [List.foldl_cons, List.foldl_cons, ih]
      unfold mergeStep
      dsimp only
      rw [ite_lt_eq_min]

theorem foldl_mergeStep_openTime (l : List (String × Candle)) (acc : MergeAcc) :
    (l.foldl mergeStep acc).agg.OpenTime = acc.agg.OpenTime := by
  induction l generalizing acc with
  | nil => rfl
  | cons e rest ih => rw [List.foldl_cons, ih]; rfl

theorem foldl_mergeStep_fixed (l : List (String × Candle)) (acc : MergeAcc) :
    (l.foldl mergeStep acc).agg.Symbol = acc.agg.Symbol ∧
    (l.foldl mergeStep acc).agg.Interval = acc.agg.Interval ∧
    (l.foldl mergeStep acc).agg.Open = acc.agg.Open ∧
    (l.foldl mergeStep acc).agg.CloseTime = acc.agg.CloseTime ∧
    (l.foldl mergeStep acc).agg.Exchange = acc.agg.Exchange := by
  induction l generalizing acc with
  | nil => exact ⟨rfl, rfl, rfl, rfl, rfl⟩
  | cons e rest ih => rw [List.foldl_cons]; exact ih _

theorem foldl_mergeStep_high_inv (l : List (String × Candle)) (acc : MergeAcc)
    (h : parseF0 acc.agg.High = acc.maxH) :
    parseF0 (l.foldl mergeStep acc).agg.High = (l.foldl mergeStep acc).maxH := by
  induction l generalizing acc with
  | nil => exact h
  | cons e rest ih =>
      rw [List.foldl_cons]
      refine ih _ ?_
      unfold mergeStep
      dsimp only
      split
      · rfl
      · exact h

theorem foldl_mergeStep_low_inv (l : List (String × Candle)) (acc : MergeAcc)
    (h : parseF0 acc.agg.Low = acc.minL) :
    parseF0 (l.foldl mergeStep acc).agg.Low = (l.foldl mergeStep acc).minL := by
  induction l generalizing acc with
  | nil => exact h
  | cons e rest ih =>
      rw [List.foldl_cons]
      refine ih _ ?_
      unfold mergeStep
      dsimp only
      split
      · rfl
      · exact h

theorem foldl_mergeStep_high_source (l : List (String × Candle)) (acc : MergeAcc) :
    (l.foldl mergeStep acc).agg.High = acc.agg.High ∨
    ∃ ec ∈ l, (l.foldl mergeStep acc).agg.High = ec.2.High := by
  induction l generalizing acc with
  | nil => exact Or.inl rfl
  | cons e rest ih =>
      rw [List.foldl_cons]
      rcases ih (mergeStep acc e) with h | ⟨ec, hmem, hec⟩
      · rw [h]
        unfold mergeStep
        dsimp only
        split
        · exact Or.inr ⟨e, List.mem_cons_self e rest, rfl⟩
        · exact Or.inl rfl
      · exact Or.inr ⟨ec, List.mem_cons_of_mem e hmem, hec⟩

theorem foldl_mergeStep_low_source (l : List (String × Candle)) (acc : MergeAcc) :
    (l.foldl mergeStep acc).agg.Low = acc.agg.Low ∨
    ∃ ec ∈ l, (l.foldl mergeStep acc).agg.Low = ec.2.Low := by
  induction l generalizing acc with
  | nil => exact Or.inl rfl
  | cons e rest ih =>
      rw [List.foldl_cons]
      rcases ih (mergeStep acc e) with h | ⟨ec, hmem, hec⟩
      · rw [h]
        unfold mergeStep
        dsimp only
        split
        · exact Or.inr ⟨e, List.mem_cons_self e rest, rfl⟩
        · exact Or.inl rfl
      · exact Or.inr ⟨ec, List.mem_cons_of_mem e hmem, hec⟩

/- merge characterizations -/

theorem merge_volume_eq (x : String) (c0 : Candle) (rest : List (String × Candle)) :
    (merge ((x, c0) :: rest)).Volume =
      formatRat (parseF0 c0.Volume + sumPos rest) := by
  unfold merge
  dsimp only
  rw [foldl_mergeStep_sumV]

theorem merge_openTime_eq (x : String) (c0 : Candle) (rest : List (String × Candle)) :
    (merge ((x, c0) :: rest)).OpenTime = c0.OpenTime := by
  unfold merge
  dsimp only
  rw [foldl_mergeStep_openTime]

theorem merge_isClosed_false (x : String) (c0 : Candle) (rest : List (String × Candle)) :
    (merge ((x, c0) :: rest)).IsClosed = false := rfl

theorem merge_high_charact (x : String) (c0 : Candle) (rest : List (String × Candle)) :
    parseF0 (merge ((x, c0) :: rest)).High = maxParsedHigh ((x, c0) :: rest) ∧
    ∃ ec ∈ (x, c0) :: rest, (merge ((x, c0) :: rest)).High = ec.2.High := by
  unfold merge maxParsedHigh
  dsimp only
  constructor
  · rw [foldl_mergeStep_high_inv _ _ rfl, foldl_mergeStep_maxH]
  · rcases foldl_mergeStep_high_source rest
      ⟨{ c0 with Exchange := "aggregated" },
       parseF0 c0.High, parseF0 c0.Low, parseF0 c0.Volume⟩ with h | ⟨ec, hmem, hec⟩
    · exact ⟨(x, c0), List.mem_cons_self _ _, h⟩
    · exact ⟨ec, List.mem_cons_of_mem _ hmem, hec⟩

theorem merge_low_charact (x : String) (c0 : Candle) (rest : List (String × Candle)) :
    parseF0 (merge ((x, c0) :: rest)).Low = minParsedLow ((x, c0) :: rest) ∧
    ∃ ec ∈ (x, c0) :: rest, (merge ((x, c0) :: rest)).Low = ec.2.Low := by
  unfold merge minParsedLow
  dsimp only
  constructor
  · rw [foldl_mergeStep_low_inv _ _ rfl, foldl_mergeStep_minL]
  · rcases foldl_mergeStep_low_source rest
      ⟨{ c0 with Exchange := "aggregated" },
       parseF0 c0.High, parseF0 c0.Low, parseF0 c0.Volume⟩ with h | ⟨ec, hmem, hec⟩
    · exact ⟨(x, c0), List.mem_cons_self _ _, h⟩
    · exact ⟨ec, List.mem_cons_of_mem _ hmem, hec⟩

/- permutation invariance of the running max/min -/

theorem foldl_max_perm {l₁ l₂ : List ℚ} (h : l₁.Perm l₂) (a : ℚ) :
    l₁.foldl max a = l₂.foldl max a := by
  induction h generalizing a with
  | nil => rfl
  | cons x _ ih => rw [List.foldl_cons, List.foldl_cons]; exact ih _
  | swap x y l =>
      simp only [List.foldl_cons]
      congr 1
      rw [max_assoc, max_assoc, max_comm y x]
  | trans _ _ ih₁ ih₂ => rw [ih₁, ih₂]

theorem foldl_max_init (l : List ℚ) (a b : ℚ) :
    l.foldl max (max a b) = max a (l.foldl max b) := by
  induction l generalizing b with
  | nil => rfl
  | cons x xs ih => rw [List.foldl_cons, List.foldl_cons, max_assoc, ih]

theorem le_foldl_max_init (l : List ℚ) (b : ℚ) : b ≤ l.foldl max b := by
  induction l generalizing b with
  | nil => exact le_rfl
  | cons x xs ih =>
      rw [List.foldl_cons]
      exact le_trans (le_max_left b x) (ih _)

theorem mem_le_foldl_max (l : List ℚ) (a b : ℚ) (h : a ∈ l) :
    a ≤ l.foldl max b := by
  induction l generalizing b with
  | nil => cases h
  | cons x xs ih =>
      rw [List.foldl_cons]
      rcases List.mem_cons.1 h with rfl | hx
      · exact le_trans (le_max_right b a) (le_foldl_max_init _ _)
      · exact ih _ hx

theorem headFoldl_max_perm {x y : ℚ} {xs ys : List ℚ}
    (h : (x :: xs).Perm (y :: ys)) : xs.foldl max x = ys.foldl max y := by
  have h₁ : xs.foldl max x = (x :: xs).foldl max x := by
    rw [List.foldl_cons, max_self]
  rw [h₁, foldl_max_perm h x, List.foldl_cons]
  have hx : x ∈ y :: ys := h.mem_iff.1 (List.mem_cons_self x xs)
  rcases List.mem_cons.1 hx with rfl | hx
  · rw [max_self]
  · rw [foldl_max_init]
    exact max_eq_right (mem_le_foldl_max _ _ _ hx)

theorem foldl_min_perm {l₁ l₂ : List ℚ} (h : l₁.Perm l₂) (a : ℚ) :
    l₁.foldl min a = l₂.foldl min a := by
  induction h generalizing a with
  | nil => rfl
  | cons x _ ih => rw [List.foldl_cons, List.foldl_cons]; exact ih _
  | swap x y l =>
      simp only [List.foldl_cons]
      congr 1
      rw [min_assoc, min_assoc, min_comm y x]
  | trans _ _ ih₁ ih₂ => rw [ih₁, ih₂]

theorem foldl_min_init (l : List ℚ) (a b : ℚ) :
    l.foldl min (min a b) = min a (l.foldl min b) := by
  induction l generalizing b with
  | nil => rfl
  | cons x xs ih => rw [List.foldl_cons, List.foldl_cons, min_assoc, ih]

theorem foldl_min_init_le (l : List ℚ) (b : ℚ) : l.foldl min b ≤ b := by
  induction l generalizing b with
  | nil => exact le_rfl
  | cons x xs ih =>
      rw [List.foldl_cons]
      exact le_trans (ih _) (min_le_left b x)

theorem foldl_min_le_mem (l : List ℚ) (a b : ℚ) (h : a ∈ l) :
    l.foldl min b ≤ a := by
  induction l generalizing b with
  | nil => cases h
  | cons x xs ih =>
      rw [List.foldl_cons]
      rcases List.mem_cons.1 h with rfl | hx
      · exact le_trans (foldl_min_init_le _ _) (min_le_right b a)
      · exact ih _ hx

theorem headFoldl_min_perm {x y : ℚ} {xs ys : List ℚ}
    (h : (x :: xs).Perm (y :: ys)) : xs.foldl min x = ys.foldl min y := by
  have h₁ : xs.foldl min x = (x :: xs).foldl min x := by
    rw [List.foldl_cons, min_self]
  rw [h₁, foldl_min_perm h x, List.foldl_cons]
  have hx : x ∈ y :: ys := h.mem_iff.1 (List.mem_cons_self x xs)
  rcases List.mem_cons.1 hx with rfl | hx
  · rw [min_self]
  · rw [foldl_min_init]
    exact min_eq_right (foldl_min_le_mem _ _ _ hx)

theorem maxParsedHigh_foldl (e : String × Candle) (l : List (String × Candle)) :
    maxParsedHigh (e :: l) =
      (l.map (fun ec => parseF0 ec.2.High)).foldl max (parseF0 e.2.High) := by
  unfold maxParsedHigh
  rw [List.foldl_map]

theorem minParsedLow_foldl (e : String × Candle) (l : List (String × Candle)) :
    minParsedLow (e :: l) =
      (l.map (fun ec => parseF0 ec.2.Low)).foldl min (parseF0 e.2.Low) := by
  unfold minParsedLow
  rw [List.foldl_map]

theorem maxParsedHigh_perm {e₁ e₂ : String × Candle}
    {l₁ l₂ : List (String × Candle)} (h : (e₁ :: l₁).Perm (e₂ :: l₂)) :
    maxParsedHigh (e₁ :: l₁) = maxParsedHigh (e₂ :: l₂) := by
  rw [maxParsedHigh_foldl, maxParsedHigh_foldl]
  have hm := h.map (fun ec => parseF0 ec.2.High)
  rw [List.map_cons, List.map_cons] at hm
  exact headFoldl_max_perm hm

theorem minParsedLow_perm {e₁ e₂ : String × Candle}
    {l₁ l₂ : List (String × Candle)} (h : (e₁ :: l₁).Perm (e₂ :: l₂)) :
    minParsedLow (e₁ :: l₁) = minParsedLow (e₂ :: l₂) := by
  rw [minParsedLow_foldl, minParsedLow_foldl]
  have hm := h.map (fun ec => parseF0 ec.2.Low)
  rw [List.map_cons, List.map_cons] at hm
  exact headFoldl_min_perm hm

/- ── C9 ── -/

/-- C9, counterexample: merge is not deterministic modulo close.  The two
lists hold the same two per-exchange candles, sharing the period openTime
1000, in the two iteration orders; the merged volumes differ ("4" vs "5"),
because the first iterated entry's volume is added unconditionally while a
later negative volume is skipped. -/
theorem c9_counterexample :
    ((("A", mkC "A" 1000 "10" "9" "-1" false) ::
        [("B", mkC "B" 1000 "10" "9" "5" false)]).Perm
      (("B", mkC "B" 1000 "10" "9" "5" false) ::
        [("A", mkC "A" 1000 "10" "9" "-1" false)])) ∧
    (∀ ec ∈ ("A", mkC "A" 1000 "10" "9" "-1" false) ::
        [("B", mkC "B" 1000 "10" "9" "5" false)], ec.2.OpenTime = 1000) ∧
    (merge (("A", mkC "A" 1000 "10" "9" "-1" false) ::
        [("B", mkC "B" 1000 "10" "9" "5" false)])).Volume ≠
      (merge (("B", mkC "B" 1000 "10" "9" "5" false) ::
        [("A", mkC "A" 1000 "10" "9" "-1" false)])).Volume := by
  refine ⟨List.Perm.swap _ _ _, by decide, by decide⟩

/-- C9, amended: for any two iteration orders (permutations) over the same
multiset of per-exchange candles sharing one openTime, the two merge results
agree on the parsed numeric values of high and low and on openTime; the
high/low string representations, open, close, closeTime and volume may all
depend on the iteration order. -/
theorem c9_merge_deterministic_amended
    (x₁ : String) (c₁ : Candle) (l₁ : List (String × Candle))
    (x₂ : String) (c₂ : Candle) (l₂ : List (String × Candle))
    (hperm : ((x₁, c₁) :: l₁).Perm ((x₂, c₂) :: l₂))
    (ht : ∀ ec ∈ (x₁, c₁) :: l₁, ec.2.OpenTime = c₁.OpenTime) :
    parseF0 (merge ((x₁, c₁) :: l₁)).High = parseF0 (merge ((x₂, c₂) :: l₂)).High ∧
    parseF0 (merge ((x₁, c₁) :: l₁)).Low = parseF0 (merge ((x₂, c₂) :: l₂)).Low ∧
    (merge ((x₁, c₁) :: l₁)).OpenTime = (merge ((x₂, c₂) :: l₂)).OpenTime := by
  refine ⟨?_, ?_, ?_⟩
  · rw [(merge_high_charact _ _ _).1, (merge_high_charact _ _ _).1]
    exact maxParsedHigh_perm hperm
  · rw [(merge_low_charact _ _ _).1, (merge_low_charact _ _ _).1]
    exact minParsedLow_perm hperm
  · rw [merge_openTime_eq, merge_openTime_eq]
    exact (ht (x₂, c₂) (hperm.mem_iff.2 (List.mem_cons_self _ _))).symm

/-- C9 witness: the amended determinism theorem applied to a concrete
two-entry multiset in its two iteration orders. -/
theorem c9_witness :
    parseF0 (merge (("A", mkC "A" 1000 "12" "9" "1" false) ::
        [("B", mkC "B" 1000 "11" "8" "2" false)])).High =
      parseF0 (merge (("B", mkC "B" 1000 "11" "8" "2" false) ::
        [("A", mkC "A" 1000 "12" "9" "1" false)])).High :=
  (c9_merge_deterministic_amended "A" (mkC "A" 1000 "12" "9" "1" false) _
    "B" (mkC "B" 1000 "11" "8" "2" false) _
    (List.Perm.swap _ _ _) (by decide)).1

/- ── C4 ── -/

/-- C4, counterexample: merge's volume is not the sum of the non-negative
parsed volumes.  With a single entry whose volume parses to -1, the merged
volume is "-1", while the sum of non-negative parsed volumes is 0. -/
theorem c4_counterexample :
    (merge [("A", mkC "A" 1000 "10" "9" "-1" false)]).Volume = "-1" ∧
    formatRat (specNonnegVolumeSum [("A", mkC "A" 1000 "10" "9" "-1" false)]) = "0" ∧
    (merge [("A", mkC "A" 1000 "10" "9" "-1" false)]).Volume ≠
      formatRat (specNonnegVolumeSum [("A", mkC "A" 1000 "10" "9" "-1" false)]) := by
  have h2 : specNonnegVolumeSum [("A", mkC "A" 1000 "10" "9" "-1" false)] = 0 := by
    unfold specNonnegVolumeSum
    rw [List.map_cons, List.map_nil, List.sum_cons, List.sum_nil, add_zero]
    dsimp only
    rw [if_neg (by decide :
      ¬ (0 : ℚ) ≤ parseF0 (mkC "A" 1000 "10" "9" "-1" false).Volume)]
  refine ⟨by decide, by rw [h2]; decide, by rw [h2]; decide⟩

/-- C4, amended: for every non-empty perExchange list, merge's volume is the
first iterated entry's parsed volume (0 on parse failure, negative values
included) plus the sum of the strictly positive parsed volumes of the
remaining entries, re-encoded as a minimal decimal string. -/
theorem c4_merge_volume_amended (x : String) (c0 : Candle)
    (rest : List (String × Candle)) :
    (merge ((x, c0) :: rest)).Volume =
      formatRat (parseF0 c0.Volume +
        (rest.map (fun ec =>
          if 0 < parseF0 ec.2.Volume then parseF0 ec.2.Volume else 0)).sum) := by
  rw [merge_volume_eq]
  rfl

/- ── C5 ── -/

/-- C5, counterexample: an unparseable high can become the merged candle's
high.  "oops" fails to parse, is treated as 0 in the comparison, and 0
exceeds the only other (negative) parsed high, so the merged high is the
unparseable string "oops". -/
theorem c5_counterexample :
    parseFloat (mkC "B" 1000 "oops" "1" "1" false).High = none ∧
    (merge [("A", mkC "A" 1000 "-5" "-6" "1" false),
            ("B", mkC "B" 1000 "oops" "1" "1" false)]).High = "oops" := by
  refine ⟨by decide, by decide⟩

/-- C5, amended: an entry (beyond the first) whose volume fails to parse
contributes 0 to the volume sum; an entry whose high/low fails to parse
participates in the max/min comparison with value 0 rather than being
excluded — the merged high (low) is always the high (low) string of an entry
whose parsed value, with parse failures reading as 0, attains the maximum
(minimum), so an unparseable high can become the merged high exactly when
that maximum is 0. -/
theorem sumPos_cons (e : String × Candle) (l : List (String × Candle)) :
    sumPos (e :: l) = posPart (parseF0 e.2.Volume) + sumPos l := by
  unfold sumPos
  rw [List.map_cons, List.sum_cons]

theorem sumPos_append (a b : List (String × Candle)) :
    sumPos (a ++ b) = sumPos a + sumPos b := by
  unfold sumPos
  rw [List.map_append, List.sum_append]

theorem c5_parse_failure_amended (x : String) (c0 : Candle)
    (rest pre post : List (String × Candle)) (ec : String × Candle)
    (hrest : rest = pre ++ ec :: post) (hvol : parseFloat ec.2.Volume = none) :
    (merge ((x, c0) :: rest)).Volume =
      formatRat (parseF0 c0.Volume + sumPos (pre ++ post)) ∧
    (∃ e ∈ (x, c0) :: rest, (merge ((x, c0) :: rest)).High = e.2.High ∧
        parseF0 e.2.High = maxParsedHigh ((x, c0) :: rest)) ∧
    (∃ e ∈ (x, c0) :: rest, (merge ((x, c0) :: rest)).Low = e.2.Low ∧
        parseF0 e.2.Low = minParsedLow ((x, c0) :: rest)) := by
  refine ⟨?_, ?_, ?_⟩
  · rw [merge_volume_eq]
    have hzero : posPart (parseF0 ec.2.Volume) = 0 := by
      unfold parseF0
      rw [hvol]
      decide
    rw [hrest, sumPos_append, sumPos_cons, hzero, zero_add, ← sumPos_append]
  · obtain ⟨hmax, e, hemem, hhigh⟩ := merge_high_charact x c0 rest
    exact ⟨e, hemem, hhigh, by rw [← hhigh, hmax]⟩
  · obtain ⟨hmin, e, hemem, hlow⟩ := merge_low_charact x c0 rest
    exact ⟨e, hemem, hlow, by rw [← hlow, hmin]⟩

/-- C5 witness: the amended theorem applied to a concrete list with an
unparseable volume in its second entry. -/
theorem c5_witness :
    (merge (("A", mkC "A" 1000 "10" "9" "2" false) ::
        [("B", mkC "B" 1000 "11" "8" "bad" false)])).Volume =
      formatRat (parseF0 (mkC "A" 1000 "10" "9" "2" false).Volume +
        sumPos ([] ++ [])) :=
  (c5_parse_failure_amended "A" (mkC "A" 1000 "10" "9" "2" false)
    [("B", mkC "B" 1000 "11" "8" "bad" false)] [] []
    ("B", mkC "B" 1000 "11" "8" "bad" false)
    rfl (by decide)).1

/- association list lemmas -/

theorem lookupI_cons_pos {β : Type} (e : Int × β) (rest : List (Int × β))
    (t : Int) (h : e.1 = t) : lookupI (e :: rest) t = some e.2 := by
  unfold lookupI
  rw [@List.find?_cons_of_pos _ (fun x => x.1 == t) e rest (by simpa using h)]

theorem lookupI_cons_neg {β : Type} (e : Int × β) (rest : List (Int × β))
    (t : Int) (h : e.1 ≠ t) : lookupI (e :: rest) t = lookupI rest t := by
  unfold lookupI
  rw [@List.find?_cons_of_neg _ (fun x => x.1 == t) e rest (by simpa using h)]

theorem lookupI_none_of_forall {β : Type} (l : List (Int × β)) (k : Int)
    (h : ∀ e ∈ l, e.1 ≠ k) : lookupI l k = none := by
  unfold lookupI
  rw [List.find?_eq_none.2]
  intro e he
  simpa using h e he

theorem lookupI_filter_not_lt {β : Type} (l : List (Int × β)) (k : Int) :
    lookupI (l.filter (fun tp => !decide (tp.1 < k))) k = lookupI l k := by
  induction l with
  | nil => rfl
  | cons e rest ih =>
      rw [List.filter_cons]
      by_cases hek : e.1 = k
      · have hkeep : (!decide (e.1 < k)) = true := by simp [hek]
        rw [if_pos hkeep, lookupI_cons_pos e _ k hek, lookupI_cons_pos e rest k hek]
      · by_cases hlt : (!decide (e.1 < k)) = true
        · rw [if_pos hlt, lookupI_cons_neg e _ k hek, lookupI_cons_neg e rest k hek]
          exact ih
        · rw [if_neg hlt, lookupI_cons_neg e rest k hek]
          exact ih

theorem lookupI_map_update_self {β : Type} (l : List (Int × β)) (k : Int)
    (v : β) (hany : l.any (fun e => e.1 == k) = true) :
    lookupI (l.map (fun e => if e.1 == k then (k, v) else e)) k = some v := by
  induction l with
  | nil => cases hany
  | cons e rest ih =>
      rw [List.map_cons]
      by_cases he : (e.1 == k) = true
      · rw [if_pos he, lookupI_cons_pos _ _ _ rfl]
      · rw [if_neg he, lookupI_cons_neg e _ k (by simpa using he)]
        refine ih ?_
        rcases List.any_eq_true.1 hany with ⟨x, hx, hxk⟩
        rcases List.mem_cons.1 hx with rfl | hx
        · exact absurd hxk he
        · exact List.any_eq_true.2 ⟨x, hx, hxk⟩

theorem lookupI_append_single_self {β : Type} (l : List (Int × β)) (k : Int)
    (v : β) (hall : ∀ e ∈ l, e.1 ≠ k) :
    lookupI (l ++ [(k, v)]) k = some v := by
  induction l with
  | nil => exact lookupI_cons_pos _ _ _ rfl
  | cons e rest ih =>
      rw [List.cons_append,
        lookupI_cons_neg e _ k (hall e (List.mem_cons_self e rest))]
      exact ih (fun x hx => hall x (List.mem_cons_of_mem e hx))

theorem lookupI_updateAssocI_self {β : Type} (l : List (Int × β)) (k : Int)
    (v : β) : lookupI (updateAssocI l k v) k = some v := by
  unfold updateAssocI
  by_cases hany : l.any (fun e => e.1 == k) = true
  · rw [if_pos hany]
    exact lookupI_map_update_self l k v hany
  · rw [if_neg hany]
    refine lookupI_append_single_self l k v ?_
    intro e he hek
    exact hany (List.any_eq_true.2 ⟨e, he, by simpa using hek⟩)

theorem lookupI_map_update_ne {β : Type} (l : List (Int × β)) (k t : Int)
    (v : β) (h : k ≠ t) :
    lookupI (l.map (fun e => if e.1 == k then (k, v) else e)) t = lookupI l t := by
  induction l with
  | nil => rfl
  | cons e rest ih =>
      rw [List.map_cons]
      by_cases he : (e.1 == k) = true
      · have hek : e.1 = k := by simpa using he
        rw [if_pos he, lookupI_cons_neg _ _ t h,
          lookupI_cons_neg e rest t (by rw [hek]; exact h)]
        exact ih
      · rw [if_neg he]
        by_cases het : e.1 = t
        · rw [lookupI_cons_pos e _ t het, lookupI_cons_pos e rest t het]
        · rw [lookupI_cons_neg e _ t het, lookupI_cons_neg e rest t het]
          exact ih

theorem lookupI_append_single_ne {β : Type} (l : List (Int × β)) (k t : Int)
    (v : β) (h : k ≠ t) : lookupI (l ++ [(k, v)]) t = lookupI l t := by
  induction l with
  | nil =>
      rw [List.nil_append, lookupI_cons_neg _ _ t h]
  | cons e rest ih =>
      rw [List.cons_append]
      by_cases het : e.1 = t
      · rw [lookupI_cons_pos e _ t het, lookupI_cons_pos e rest t het]
      · rw [lookupI_cons_neg e _ t het, lookupI_cons_neg e rest t het]
        exact ih

theorem lookupI_updateAssocI_ne {β : Type} (l : List (Int × β)) (k t : Int)
    (v : β) (h : k ≠ t) : lookupI (updateAssocI l k v) t = lookupI l t := by
  unfold updateAssocI
  by_cases hany : l.any (fun e => e.1 == k) = true
  · rw [if_pos hany]
    exact lookupI_map_update_ne l k t v h
  · rw [if_neg hany]
    exact lookupI_append_single_ne l k t v h

theorem contains_false_of_not_mem (l : List Int) (a : Int) (h : a ∉ l) :
    ¬(l.contains a = true) :=
  fun hc => h (List.elem_iff.1 hc)

/- ── C7 ── -/

theorem handleCandle_drop_eq (numEx limit : ℕ) (s : SymState) (c : Candle)
    (h : c.OpenTime ∈ s.finalized) :
    handleCandle numEx limit s c = (s, []) := by
  unfold handleCandle
  rw [if_pos (List.elem_eq_true_of_mem h)]

/-- C7: a candle whose openTime is already finalized is dropped -- the state
(history, pending, finalized, handlers) is returned unchanged and the
to-publish list is empty, so nothing is dispatched to any handler. -/
theorem c7_late_arrival_drop (numEx limit : ℕ) (s : SymState) (c : Candle)
    (h : c.OpenTime ∈ s.finalized) :
    handleCandle numEx limit s c = (s, []) :=
  handleCandle_drop_eq numEx limit s c h

/-- C7 witness: the drop theorem applied to a concrete state that has
already finalized period 1000. -/
theorem c7_witness :
    handleCandle 2 365
      ⟨false, none, [], [], [], [1000], [], 0⟩ (mkC "B" 1000 "10" "9" "5" true) =
      (⟨false, none, [], [], [], [1000], [], 0⟩, []) :=
  c7_late_arrival_drop 2 365 _ _ (by decide)

/- ── C8 ── -/

/-- C8: after every completed appendAndResize the history length is at most
2·limit; when the append crosses 2·limit the buffer is trimmed to exactly
`limit` entries, keeping the most recent ones (a suffix of the appended
buffer); the default limit (MaxRequestLimit, used by New) is 365. -/
theorem c8_ring_trim (cs : List Candle) (c : Candle) (limit n : ℕ) :
    (appendAndResize cs c limit).length ≤ 2 * limit ∧
    (cs.length + 1 > limit * 2 →
      (appendAndResize cs c limit).length = limit ∧
      appendAndResize cs c limit = (cs ++ [c]).drop (cs.length + 1 - limit) ∧
      (appendAndResize cs c limit).IsSuffix (cs ++ [c])) ∧
    MaxRequestLimit = 365 ∧ (New n).maxLimit = 365 := by
  have hlen : (cs ++ [c]).length = cs.length + 1 := by simp
  unfold appendAndResize
  dsimp only
  by_cases hcond : (cs ++ [c]).length > limit * 2
  · rw [if_pos hcond]
    rw [hlen] at hcond
    refine ⟨?_, fun hgt => ⟨?_, ?_, ?_⟩, rfl, rfl⟩
    · rw [List.length_drop, hlen]
      omega
    · rw [List.length_drop, hlen]
      omega
    · rw [hlen]
    · exact List.drop_suffix _ _
  · rw [if_neg hcond]
    rw [hlen] at hcond
    refine ⟨?_, fun hgt => absurd hgt hcond, rfl, rfl⟩
    rw [hlen]
    omega

/-- C8 witness: with limit 1, appending a third candle trims the buffer to
exactly one (the most recent) entry. -/
theorem c8_witness :
    (appendAndResize [Candle.zero, Candle.zero] Candle.zero 1).length = 1 :=
  ((c8_ring_trim [Candle.zero, Candle.zero] Candle.zero 1 0).2.1 (by decide)).1

/- ── C10 ── -/

/-- C10: closedBy only grows.  If an exchange already confirmed the close of
the period (it is in closedBy) and later sends an isClosed = false update for
the same period, the update replaces that exchange's stored candle and
re-merges, but the exchange stays in closedBy; if closedBy already counts all
exchanges the period still finalizes naturally. -/
theorem c10_closedBy_monotone (numEx limit : ℕ) (s : SymState) (c : Candle)
    (p : PendingCandle)
    (hfin : c.OpenTime ∉ s.finalized)
    (hlook : lookupI s.pending c.OpenTime = some p)
    (hclosed : c.IsClosed = false) :
    (p.closedBy.length ≠ numEx →
      lookupI (handleCandle numEx limit s c).1.pending c.OpenTime =
        some ⟨merge (updateAssocS p.perExchange c.Exchange c),
              updateAssocS p.perExchange c.Exchange c, p.closedBy⟩) ∧
    (p.closedBy.length = numEx →
      c.OpenTime ∈ (handleCandle numEx limit s c).1.finalized) := by
  have hp0 : pendingAt s.pending c.OpenTime = p := by
    unfold pendingAt keepOf
    rw [lookupI_filter_not_lt, hlook]
    rfl
  have hcb : closedByNext s.pending c = p.closedBy := by
    unfold closedByNext
    rw [hclosed, hp0]
    rfl
  have hpe : perExNext s.pending c = updateAssocS p.perExchange c.Exchange c := by
    unfold perExNext
    rw [hp0]
  unfold handleCandle
  rw [if_neg (contains_false_of_not_mem _ _ hfin)]
  dsimp only
  rw [hcb, hpe]
  constructor
  · intro hne
    rw [if_neg hne]
    dsimp only
    exact lookupI_updateAssocI_self _ _ _
  · intro heq
    rw [if_pos heq]
    dsimp only
    simp

/-- C10 witness: a concrete pending period that exchange "A" closed earlier
receives an isClosed = false update from "A"; the stored candle is replaced
and re-merged while closedBy still contains "A". -/
theorem c10_witness :
    lookupI (handleCandle 2 365
      ⟨false, none, [], [],
        [(1000, ⟨merge [("A", mkC "A" 1000 "10" "9" "1" true)],
                 [("A", mkC "A" 1000 "10" "9" "1" true)], ["A"]⟩)],
        [], [], 0⟩
      (mkC "A" 1000 "12" "8" "2" false)).1.pending 1000 =
      some ⟨merge (updateAssocS [("A", mkC "A" 1000 "10" "9" "1" true)] "A"
              (mkC "A" 1000 "12" "8" "2" false)),
            updateAssocS [("A", mkC "A" 1000 "10" "9" "1" true)] "A"
              (mkC "A" 1000 "12" "8" "2" false),
            ["A"]⟩ :=
  (c10_closedBy_monotone 2 365 _ _
    ⟨merge [("A", mkC "A" 1000 "10" "9" "1" true)],
     [("A", mkC "A" 1000 "10" "9" "1" true)], ["A"]⟩
    (by decide) (by decide) rfl).1 (by decide)

/- ── C2 ── -/

theorem foldl_appendAndResize_suffix (limit : ℕ) (l : List Candle) :
    ∀ cs : List Candle, l.length ≤ limit →
      ∃ pre, l.foldl (fun cs fc => appendAndResize cs fc limit) cs = pre ++ l := by
  induction l using List.reverseRecOn with
  | nil => exact fun cs _ => ⟨cs, by simp⟩
  | append_singleton l a ih =>
      intro cs hlen
      have hlen₁ : (l ++ [a]).length = l.length + 1 := by simp
      have hlen' : l.length ≤ limit := by omega
      obtain ⟨pre, hpre⟩ := ih cs hlen'
      rw [List.foldl_append, hpre]
      show ∃ pre', appendAndResize (pre ++ l) a limit = pre' ++ (l ++ [a])
      unfold appendAndResize
      dsimp only
      by_cases hc : (pre ++ l ++ [a]).length > limit * 2
      · rw [if_pos hc]
        refine ⟨pre.drop ((pre ++ l ++ [a]).length - limit), ?_⟩
        rw [List.append_assoc, List.drop_append_eq_append_drop]
        have hz : (pre ++ (l ++ [a])).length - limit - pre.length = 0 := by
          have h₂ : (pre ++ (l ++ [a])).length = pre.length + (l.length + 1) := by
            simp
          omega
        rw [hz, List.drop_zero]
      · rw [if_neg hc]
        exact ⟨pre, by rw [List.append_assoc]⟩

theorem merge_update_openTime (pe : List (String × Candle)) (ex : String)
    (c : Candle) (hall : ∀ e ∈ pe, e.2.OpenTime = c.OpenTime) :
    (merge (updateAssocS pe ex c)).OpenTime = c.OpenTime := by
  unfold updateAssocS
  by_cases hany : pe.any (fun e => e.1 == ex) = true
  · rw [if_pos hany]
    cases pe with
    | nil => cases hany
    | cons e0 rest =>
        rw [List.map_cons]
        by_cases h0 : (e0.1 == ex) = true
        · rw [if_pos h0, merge_openTime_eq]
        · rw [if_neg h0]
          obtain ⟨x0, c0⟩ := e0
          rw [merge_openTime_eq]
          exact hall (x0, c0) (List.mem_cons_self _ _)
  · rw [if_neg hany]
    cases pe with
    | nil => rw [List.nil_append, merge_openTime_eq]
    | cons e0 rest =>
        rw [List.cons_append]
        obtain ⟨x0, c0⟩ := e0
        rw [merge_openTime_eq]
        exact hall (x0, c0) (List.mem_cons_self _ _)

theorem pendingAt_openTimes (s : SymState) (c : Candle)
    (hwf : ∀ tp ∈ s.pending, ∀ e ∈ tp.2.perExchange, e.2.OpenTime = tp.1) :
    ∀ e ∈ (pendingAt s.pending c.OpenTime).perExchange,
      e.2.OpenTime = c.OpenTime := by
  unfold pendingAt
  cases hfind : lookupI (keepOf s.pending c.OpenTime) c.OpenTime with
  | none =>
      rw [Option.getD_none]
      intro e he
      cases he
  | some q =>
      rw [Option.getD_some]
      unfold lookupI at hfind
      cases hf : List.find? (fun e => e.1 == c.OpenTime)
          (keepOf s.pending c.OpenTime) with
      | none => rw [hf] at hfind; cases hfind
      | some ent =>
          rw [hf] at hfind
          have hq : ent.2 = q := Option.some.inj hfind
          have hmem : ent ∈ s.pending :=
            List.mem_of_mem_filter (List.mem_of_find?_eq_some hf)
          have hkey : ent.1 = c.OpenTime := by simpa using List.find?_some hf
          intro e he
          have := hwf ent hmem e (by rw [hq]; exact he)
          rw [hkey] at this
          exact this

/-- C2: a candle for a non-finalized period t' force-closes every pending
period t < t': the stale period's merged candle, marked isClosed = true, is
appended to history (it is in the final history whenever fewer than `limit`
periods are pending), t is added to finalized, removed from pending, and
published strictly before the list's final element, which is the merged
update for t' itself. -/
theorem c2_force_close_stale (numEx limit : ℕ) (s : SymState) (c : Candle)
    (t : Int) (p : PendingCandle)
    (hfin : c.OpenTime ∉ s.finalized)
    (hmem : (t, p) ∈ s.pending)
    (hlt : t < c.OpenTime)
    (hwf : ∀ tp ∈ s.pending, ∀ e ∈ tp.2.perExchange, e.2.OpenTime = tp.1)
    (hcap : s.pending.length < limit) :
    t ∈ (handleCandle numEx limit s c).1.finalized ∧
    lookupI (handleCandle numEx limit s c).1.pending t = none ∧
    { p.agg with IsClosed := true } ∈ (handleCandle numEx limit s c).2.dropLast ∧
    (∃ last, (handleCandle numEx limit s c).2.getLast? = some last ∧
        last.OpenTime = c.OpenTime) ∧
    { p.agg with IsClosed := true } ∈ (handleCandle numEx limit s c).1.candles := by
  have hstale : (t, p) ∈ staleOf s.pending c.OpenTime :=
    List.mem_filter.2 ⟨hmem, by simpa using hlt⟩
  have hforced : { p.agg with IsClosed := true } ∈
      (staleOf s.pending c.OpenTime).map
        (fun tp => { tp.2.agg with IsClosed := true }) :=
    List.mem_map_of_mem _ hstale
  have hstale_len : (staleOf s.pending c.OpenTime).length ≤ s.pending.length :=
    List.length_filter_le _ _
  have hkeep_t : ∀ e ∈ keepOf s.pending c.OpenTime, e.1 ≠ t := by
    intro e he het
    have : (!decide (e.1 < c.OpenTime)) = true := (List.mem_filter.1 he).2
    rw [het] at this
    simp [hlt] at this
  have hlast_time :
      (merge (perExNext s.pending c)).OpenTime = c.OpenTime := by
    unfold perExNext
    exact merge_update_openTime _ _ _ (pendingAt_openTimes s c hwf)
  unfold handleCandle
  rw [if_neg (contains_false_of_not_mem _ _ hfin)]
  dsimp only
  by_cases hbr : (closedByNext s.pending c).length = numEx
  · rw [if_pos hbr]
    dsimp only
    obtain ⟨pre, hpre⟩ := foldl_appendAndResize_suffix limit
      ((staleOf s.pending c.OpenTime).map
          (fun tp => { tp.2.agg with IsClosed := true }) ++
        [{ merge (perExNext s.pending c) with IsClosed := true }])
      s.candles (by
        simp only [List.length_append, List.length_map, List.length_cons,
          List.length_nil]
        omega)
    rw [List.foldl_append] at hpre
    refine ⟨?_, ?_, ?_, ?_, ?_⟩
    · exact List.mem_append_left _ (List.mem_append_right _
        (List.mem_map_of_mem _ hstale))
    · refine lookupI_none_of_forall _ _ ?_
      intro e he
      exact hkeep_t e (List.mem_of_mem_filter he)
    · rw [List.dropLast_concat]
      exact hforced
    · exact ⟨_, List.getLast?_concat _, hlast_time⟩
    · have : appendAndResize
          (((staleOf s.pending c.OpenTime).map
            (fun tp => { tp.2.agg with IsClosed := true })).foldl
              (fun cs fc => appendAndResize cs fc limit) s.candles)
          { merge (perExNext s.pending c) with IsClosed := true } limit =
          pre ++ ((staleOf s.pending c.OpenTime).map
              (fun tp => { tp.2.agg with IsClosed := true }) ++
            [{ merge (perExNext s.pending c) with IsClosed := true }]) := by
        rw [← hpre]
        rfl
      rw [this]
      exact List.mem_append_right _ (List.mem_append_left _ hforced)
  · rw [if_neg hbr]
    dsimp only
    obtain ⟨pre, hpre⟩ := foldl_appendAndResize_suffix limit
      ((staleOf s.pending c.OpenTime).map
        (fun tp => { tp.2.agg with IsClosed := true }))
      s.candles (by rw [List.length_map]; omega)
    refine ⟨?_, ?_, ?_, ?_, ?_⟩
    · exact List.mem_append_right _ (List.mem_map_of_mem _ hstale)
    · rw [lookupI_updateAssocI_ne _ _ _ _ (by omega)]
      refine lookupI_none_of_forall _ _ ?_
      intro e he
      exact hkeep_t e he
    · rw [List.dropLast_concat]
      exact hforced
    · exact ⟨_, List.getLast?_concat _, hlast_time⟩
    · rw [hpre]
      exact List.mem_append_right _ hforced

/-- C2 witness: a concrete state with pending period 1000 receives a candle
for period 2000; period 1000 is force-closed, finalized, and published before
the 2000 update. -/
theorem c2_witness :
    1000 ∈ (handleCandle 2 365
      ⟨false, none, [], [],
        [(1000, ⟨merge [("A", mkC "A" 1000 "10" "9" "1" false)],
                 [("A", mkC "A" 1000 "10" "9" "1" false)], []⟩)],
        [], [], 0⟩
      (mkC "A" 2000 "12" "11" "1" false)).1.finalized :=
  (c2_force_close_stale 2 365 _ (mkC "A" 2000 "12" "11" "1" false) 1000
    ⟨merge [("A", mkC "A" 1000 "10" "9" "1" false)],
     [("A", mkC "A" 1000 "10" "9" "1" false)], []⟩
    (by decide) (by decide) (by decide) (by decide) (by decide)).1

/- ── C3 ── -/

theorem mem_updateAssocS {β : Type} (l : List (String × β)) (k : String)
    (v : β) (e : String × β) (h : e ∈ updateAssocS l k v) :
    e = (k, v) ∨ e ∈ l := by
  unfold updateAssocS at h
  by_cases hany : l.any (fun e => e.1 == k) = true
  · rw [if_pos hany] at h
    rcases List.mem_map.1 h with ⟨x, hx, hfx⟩
    by_cases hxk : (x.1 == k) = true
    · rw [if_pos hxk] at hfx
      exact Or.inl hfx.symm
    · rw [if_neg hxk] at hfx
      exact Or.inr (hfx ▸ hx)
  · rw [if_neg hany] at h
    rcases List.mem_append.1 h with hl | hr
    · exact Or.inr hl
    · exact Or.inl (List.mem_singleton.1 hr)

theorem updateAssocS_ne_nil {β : Type} (l : List (String × β)) (k : String)
    (v : β) : updateAssocS l k v ≠ [] := by
  unfold updateAssocS
  by_cases hany : l.any (fun e => e.1 == k) = true
  · rw [if_pos hany]
    cases l with
    | nil => cases hany
    | cons e rest => simp
  · rw [if_neg hany]
    simp

theorem keys_map_update (groups : List (Int × List (String × Candle)))
    (c : Candle) :
    ((groups.map (fun g =>
        if g.1 == c.OpenTime then (g.1, updateAssocS g.2 c.Exchange c) else g)).map
      (fun g => g.1)) = groups.map (fun g => g.1) := by
  rw [List.map_map]
  refine List.map_congr_left ?_
  intro g _
  show (if (g.1 == c.OpenTime) = true then (g.1, updateAssocS g.2 c.Exchange c)
    else g).1 = g.1
  by_cases hg : (g.1 == c.OpenTime) = true
  · rw [if_pos hg]
  · rw [if_neg hg]

theorem keys_insertGroup (groups : List (Int × List (String × Candle)))
    (c : Candle) (t : Int) :
    t ∈ (insertGroup groups c).map (fun g => g.1) ↔
      t ∈ groups.map (fun g => g.1) ∨ t = c.OpenTime := by
  unfold insertGroup
  by_cases hany : groups.any (fun g => g.1 == c.OpenTime) = true
  · rw [if_pos hany, keys_map_update]
    constructor
    · exact Or.inl
    · rintro (h | rfl)
      · exact h
      · rcases List.any_eq_true.1 hany with ⟨g, hg, hgk⟩
        have hge : g.1 = c.OpenTime := by simpa using hgk
        exact hge ▸ List.mem_map_of_mem _ hg
  · rw [if_neg hany, List.map_append]
    simp

theorem insertGroup_wf (groups : List (Int × List (String × Candle)))
    (c : Candle) (h : GroupsWF groups) : GroupsWF (insertGroup groups c) := by
  obtain ⟨hnd, hwf⟩ := h
  unfold insertGroup
  by_cases hany : groups.any (fun g => g.1 == c.OpenTime) = true
  · rw [if_pos hany]
    refine ⟨by rw [keys_map_update]; exact hnd, ?_⟩
    intro g hg
    rcases List.mem_map.1 hg with ⟨x, hx, hfx⟩
    by_cases hxk : (x.1 == c.OpenTime) = true
    · rw [if_pos hxk] at hfx
      have hxt : x.1 = c.OpenTime := by simpa using hxk
      refine ⟨?_, ?_⟩
      · rw [← hfx]
        exact updateAssocS_ne_nil _ _ _
      · intro e he
        rw [← hfx] at he
        rcases mem_updateAssocS _ _ _ _ he with rfl | hel
        · rw [← hfx]
          exact hxt.symm
        · rw [← hfx]
          exact (hwf x hx).2 e hel
    · rw [if_neg hxk] at hfx
      exact hfx ▸ hwf x hx
  · rw [if_neg hany]
    constructor
    · rw [List.map_append, List.nodup_append]
      refine ⟨hnd, by simp, ?_⟩
      intro t ht hts
      have : t = c.OpenTime := by simpa using hts
      subst this
      exact absurd (List.any_eq_true.2 (by
        rcases List.mem_map.1 ht with ⟨g, hg, hgt⟩
        exact ⟨g, hg, by simpa using hgt⟩)) hany
    · intro g hg
      rcases List.mem_append.1 hg with hl | hr
      · exact hwf g hl
      · have : g = (c.OpenTime, [(c.Exchange, c)]) := List.mem_singleton.1 hr
        subst this
        exact ⟨by simp, by
          intro e he
          have : e = (c.Exchange, c) := List.mem_singleton.1 he
          subst this
          rfl⟩

theorem foldl_insertGroup_wf (batch : List Candle)
    (groups : List (Int × List (String × Candle))) (h : GroupsWF groups) :
    GroupsWF (batch.foldl insertGroup groups) := by
  induction batch generalizing groups with
  | nil => exact h
  | cons c rest ih => exact ih _ (insertGroup_wf _ _ h)

theorem keys_foldl_insertGroup (batch : List Candle)
    (groups : List (Int × List (String × Candle))) (t : Int) :
    t ∈ (batch.foldl insertGroup groups).map (fun g => g.1) ↔
      t ∈ groups.map (fun g => g.1) ∨
        t ∈ batch.map (fun c => c.OpenTime) := by
  induction batch generalizing groups with
  | nil => simp
  | cons c rest ih =>
      rw [List.foldl_cons, ih, keys_insertGroup]
      rw [List.map_cons, List.mem_cons]
      tauto

theorem collectGroups_all_ok (results : List (Except String (List Candle))) :
    ∀ acc, (∀ r ∈ results, ∃ b, r = Except.ok b) →
      collectGroups results acc =
        Except.ok ((okJoin results).foldl insertGroup acc) := by
  induction results with
  | nil => intro acc _; rfl
  | cons r rest ih =>
      intro acc hok
      obtain ⟨b, rfl⟩ := hok r (List.mem_cons_self _ _)
      show collectGroups rest (b.foldl insertGroup acc) = _
      rw [ih _ (fun x hx => hok x (List.mem_cons_of_mem _ hx))]
      have : okJoin (Except.ok b :: rest) = b ++ okJoin rest := rfl
      rw [this, List.foldl_append]

theorem collectGroups_first_error (pre : List (Except String (List Candle))) :
    ∀ (e : String) post acc, (∀ r ∈ pre, ∃ b, r = Except.ok b) →
      collectGroups (pre ++ Except.error e :: post) acc = Except.error e := by
  induction pre with
  | nil => intro e post acc _; rfl
  | cons r rest ih =>
      intro e post acc hok
      obtain ⟨b, rfl⟩ := hok r (List.mem_cons_self _ _)
      rw [List.cons_append]
      show collectGroups (rest ++ Except.error e :: post) (b.foldl insertGroup acc) =
        Except.error e
      exact ih e post _ (fun x hx => hok x (List.mem_cons_of_mem _ hx))

theorem lookupI_of_mem_keys {β : Type} (l : List (Int × β)) (t : Int)
    (h : t ∈ l.map (fun g => g.1)) :
    ∃ g, lookupI l t = some g ∧ (t, g) ∈ l := by
  induction l with
  | nil => cases h
  | cons e rest ih =>
      obtain ⟨k, v⟩ := e
      by_cases hk : k = t
      · subst hk
        exact ⟨v, lookupI_cons_pos _ _ _ rfl, List.mem_cons_self _ _⟩
      · have ht : t ∈ rest.map (fun g => g.1) := by
          rcases List.mem_cons.1 h with heq | hm
          · exact absurd heq.symm hk
          · exact hm
        obtain ⟨g, hg, hgm⟩ := ih ht
        exact ⟨g, by rw [lookupI_cons_neg _ _ _ hk]; exact hg,
          List.mem_cons_of_mem _ hgm⟩

theorem merge_group_openTime (t : Int) (g : List (String × Candle))
    (hne : g ≠ []) (hall : ∀ e ∈ g, e.2.OpenTime = t) :
    (merge g).OpenTime = t := by
  cases g with
  | nil => exact absurd rfl hne
  | cons e rest =>
      obtain ⟨x0, c0⟩ := e
      rw [merge_openTime_eq]
      exact hall (x0, c0) (List.mem_cons_self _ _)

/-- C3: Backfill on all-successful feeds returns exactly the per-openTime
groups of the union of all batches, merged and sorted: the output openTimes
are strictly increasing with no duplicates and are exactly the openTimes
occurring in the union, every output candle is the merge of its group with
isClosed forced to true; if any feed fails, the whole call returns that
feed's error (the first failing feed in adapter order, wrapped with the
backfill context) and no partial results. -/
theorem c3_backfill_law (symbol interval : String)
    (results : List (Except String (List Candle))) :
    ((∀ r ∈ results, ∃ b, r = Except.ok b) →
      ∃ out, Backfill symbol interval results = Except.ok out ∧
        (out.map (fun c => c.OpenTime)).Pairwise (· < ·) ∧
        (∀ c ∈ out, c.IsClosed = true) ∧
        (∀ t : Int, t ∈ out.map (fun c => c.OpenTime) ↔
          t ∈ (okJoin results).map (fun c => c.OpenTime)) ∧
        (∀ c ∈ out, ∃ g,
          lookupI ((okJoin results).foldl insertGroup []) c.OpenTime = some g ∧
          (∀ e ∈ g, e.2.OpenTime = c.OpenTime) ∧
          c = { merge g with IsClosed := true })) ∧
    (∀ pre e post, results = pre ++ Except.error e :: post →
      (∀ r ∈ pre, ∃ b, r = Except.ok b) →
      Backfill symbol interval results =
        Except.error ("aggregator backfill [" ++ symbol ++ ":" ++ interval ++
          "]: " ++ e)) := by
  constructor
  · intro hok
    have hcoll := collectGroups_all_ok results [] hok
    have hwf : GroupsWF ((okJoin results).foldl insertGroup []) :=
      foldl_insertGroup_wf _ [] ⟨by simp, by simp⟩
    set groups := (okJoin results).foldl insertGroup [] with hgroups
    have hkeys : ∀ t : Int, t ∈ groups.map (fun g => g.1) ↔
        t ∈ (okJoin results).map (fun c => c.OpenTime) := by
      intro t
      rw [hgroups, keys_foldl_insertGroup]
      simp
    set times := List.insertionSort (fun a b : Int => a ≤ b)
      (groups.map (fun g => g.1)) with htimes
    have hperm : times.Perm (groups.map (fun g => g.1)) :=
      List.perm_insertionSort _ _
    have htsorted : times.Sorted (· < ·) :=
      (List.sorted_insertionSort _ _).lt_of_le (hperm.nodup_iff.2 hwf.1)
    have hBf : Backfill symbol interval results =
        Except.ok (times.map (fun t =>
          { merge ((lookupI groups t).getD []) with IsClosed := true })) := by
      unfold Backfill
      rw [hcoll]
    have hmap_time : ∀ t ∈ times,
        ({ merge ((lookupI groups t).getD []) with IsClosed := true} : Candle).OpenTime
          = t := by
      intro t ht
      obtain ⟨g, hg, hgm⟩ := lookupI_of_mem_keys groups t (hperm.subset ht)
      rw [hg, Option.getD_some]
      show (merge g).OpenTime = t
      exact merge_group_openTime t g (hwf.2 _ hgm).1
        (by
          intro e he
          exact (hwf.2 _ hgm).2 e he)
    refine ⟨_, hBf, ?_, ?_, ?_, ?_⟩
    · rw [List.map_map]
      have : times.map ((fun c : Candle => c.OpenTime) ∘ (fun t =>
          { merge ((lookupI groups t).getD []) with IsClosed := true })) =
          times.map id := List.map_congr_left (fun t ht => hmap_time t ht)
      rw [this, List.map_id]
      exact htsorted
    · intro c hc
      rcases List.mem_map.1 hc with ⟨t, _, hft⟩
      rw [← hft]
    · intro t
      rw [List.map_map]
      have : times.map ((fun c : Candle => c.OpenTime) ∘ (fun t =>
          { merge ((lookupI groups t).getD []) with IsClosed := true })) =
          times.map id := List.map_congr_left (fun t ht => hmap_time t ht)
      rw [this, List.map_id, ← hkeys]
      exact ⟨fun h => hperm.subset h, fun h => (hperm.symm.subset) h⟩
    · intro c hc
      rcases List.mem_map.1 hc with ⟨t, htm, hft⟩
      obtain ⟨g, hg, hgm⟩ := lookupI_of_mem_keys groups t (hperm.subset htm)
      have hct : c.OpenTime = t := by rw [← hft]; exact hmap_time t htm
      refine ⟨g, by rw [hct]; exact hg, ?_, ?_⟩
      · intro e he
        rw [hct]
        exact (hwf.2 _ hgm).2 e he
      · rw [← hft, hg, Option.getD_some]
  · intro pre e post hres hok
    unfold Backfill
    rw [hres, collectGroups_first_error pre e post [] hok]

/-- C3 witness: two feeds with overlapping openTimes backfill successfully;
the error half applied to a failing second feed. -/
theorem c3_witness :
    Backfill "BTCUSDT" "1m"
      [Except.ok [mkC "A" 1000 "10" "9" "1" true],
       Except.error "boom"] =
      Except.error ("aggregator backfill [BTCUSDT:1m]: boom") :=
  (c3_backfill_law "BTCUSDT" "1m" _).2
    [Except.ok [mkC "A" 1000 "10" "9" "1" true]] "boom" [] rfl
    (by
      intro r hr
      rcases List.mem_singleton.1 hr with rfl
      exact ⟨_, rfl⟩)

/- ── C6 ── -/

theorem startExchangeSubs_error (key : String) (pre : List (Except String ℕ)) :
    ∀ (e : String) post acc, (∀ r ∈ pre, ∃ n, r = Except.ok n) →
      startExchangeSubs key (pre ++ Except.error e :: post) acc =
        (Except.error ("aggregator [" ++ key ++ "]: " ++ e),
         acc ++ pre.filterMap (fun r =>
           match r with
           | Except.ok n => some n
           | Except.error _ => none)) := by
  induction pre with
  | nil =>
      intro e post acc _
      rw [List.nil_append]
      show (Except.error ("aggregator [" ++ key ++ "]: " ++ e), acc) = _
      rw [List.filterMap_nil, List.append_nil]
  | cons r rest ih =>
      intro e post acc hok
      obtain ⟨n, rfl⟩ := hok r (List.mem_cons_self _ _)
      rw [List.cons_append]
      show startExchangeSubs key (rest ++ Except.error e :: post) (acc ++ [n]) = _
      rw [ih e post _ (fun x hx => hok x (List.mem_cons_of_mem _ hx))]
      rw [List.filterMap_cons]
      show _ = (_, acc ++ (n :: List.filterMap _ rest))
      rw [List.append_assoc]
      rfl

theorem startExchangeSubs_all_ok (key : String)
    (results : List (Except String ℕ)) :
    ∀ acc, (∀ r ∈ results, ∃ n, r = Except.ok n) →
      startExchangeSubs key results acc =
        (Except.ok (acc ++ results.filterMap (fun r =>
          match r with
          | Except.ok n => some n
          | Except.error _ => none)), []) := by
  induction results with
  | nil =>
      intro acc _
      show (Except.ok acc, ([] : List ℕ)) = _
      rw [List.filterMap_nil, List.append_nil]
  | cons r rest ih =>
      intro acc hok
      obtain ⟨n, rfl⟩ := hok r (List.mem_cons_self _ _)
      show startExchangeSubs key rest (acc ++ [n]) = _
      rw [ih _ (fun x hx => hok x (List.mem_cons_of_mem _ hx)),
        List.filterMap_cons]
      show (Except.ok (acc ++ [n] ++ List.filterMap _ rest), ([] : List ℕ)) = _
      rw [List.append_assoc]
      rfl

theorem filter_handlers_append (l : List (ℕ × ℕ)) (id tag : ℕ)
    (h : ∀ x ∈ l, x.1 ≠ id) :
    (l ++ [(id, tag)]).filter (fun x => !(x.1 == id)) = l := by
  rw [List.filter_append]
  have h1 : l.filter (fun x => !(x.1 == id)) = l :=
    List.filter_eq_self.2 (fun x hx => by simpa using h x hx)
  have h2 : [((id : ℕ), tag)].filter (fun x => !(x.1 == id)) = [] := by simp
  rw [h1, h2, List.append_nil]

/-- Successful first-time setup: Subscribe claims the setup slot, subscribes
every exchange in order, stores all upstream tokens, clears setupErr and
returns the fresh handler token. -/
theorem subscribe_all_ok (key : String) (s : SymState) (tag : ℕ)
    (results : List (Except String ℕ))
    (hsetup : s.setup = false)
    (hok : ∀ r ∈ results, ∃ n, r = Except.ok n) :
    (Subscribe key s tag results).2.1 = Except.ok s.nextID ∧
    (Subscribe key s tag results).1.setup = true ∧
    (Subscribe key s tag results).1.setupErr = none ∧
    (Subscribe key s tag results).1.tokens =
      results.filterMap (fun r =>
        match r with
        | Except.ok n => some n
        | Except.error _ => none) := by
  unfold Subscribe
  dsimp only
  rw [hsetup]
  simp only [Bool.false_eq_true, if_false]
  rw [startExchangeSubs_all_ok key results [] hok, List.nil_append]
  exact ⟨rfl, rfl, rfl, rfl⟩

/-- C6: if any exchange's Subscribe fails during first-time setup, Subscribe
unsubscribes every upstream token obtained so far (in order), removes the
handler it had just registered (restoring the handler map), resets the setup
flag, records the wrapped error in setupErr, returns that error, and leaves
the stored tokens unchanged; a subsequent Subscribe call for the same key
re-attempts all upstream subscriptions from scratch and, when they all
succeed, stores all their tokens. -/
theorem c6_subscribe_rollback (key : String) (s : SymState) (tag : ℕ)
    (pre post : List (Except String ℕ)) (e : String)
    (hsetup : s.setup = false)
    (hfresh : ∀ h ∈ s.handlers, h.1 ≠ s.nextID)
    (hpre : ∀ r ∈ pre, ∃ n, r = Except.ok n) :
    (Subscribe key s tag (pre ++ Except.error e :: post)).2.1 =
      Except.error ("aggregator [" ++ key ++ "]: " ++ e) ∧
    (Subscribe key s tag (pre ++ Except.error e :: post)).1.setup = false ∧
    (Subscribe key s tag (pre ++ Except.error e :: post)).1.setupErr =
      some ("aggregator [" ++ key ++ "]: " ++ e) ∧
    (Subscribe key s tag (pre ++ Except.error e :: post)).1.handlers =
      s.handlers ∧
    (Subscribe key s tag (pre ++ Except.error e :: post)).1.tokens = s.tokens ∧
    (Subscribe key s tag (pre ++ Except.error e :: post)).2.2 =
      pre.filterMap (fun r =>
        match r with
        | Except.ok n => some n
        | Except.error _ => none) ∧
    (∀ (tag₂ : ℕ) (results₂ : List (Except String ℕ)),
      (∀ r ∈ results₂, ∃ n, r = Except.ok n) →
      (Subscribe key (Subscribe key s tag (pre ++ Except.error e :: post)).1
          tag₂ results₂).2.1 =
        Except.ok (Subscribe key s tag (pre ++ Except.error e :: post)).1.nextID ∧
      (Subscribe key (Subscribe key s tag (pre ++ Except.error e :: post)).1
          tag₂ results₂).1.tokens =
        results₂.filterMap (fun r =>
          match r with
          | Except.ok n => some n
          | Except.error _ => none)) := by
  have hmain : Subscribe key s tag (pre ++ Except.error e :: post) =
      ({ s with
          nextID := s.nextID + 1,
          setup := false,
          handlers := s.handlers,
          setupErr := some ("aggregator [" ++ key ++ "]: " ++ e) },
       Except.error ("aggregator [" ++ key ++ "]: " ++ e),
       pre.filterMap (fun r =>
         match r with
         | Except.ok n => some n
         | Except.error _ => none)) := by
    unfold Subscribe
    dsimp only
    rw [hsetup]
    simp only [Bool.false_eq_true, if_false]
    rw [startExchangeSubs_error key pre e post [] hpre, List.nil_append]
    dsimp only
    rw [filter_handlers_append s.handlers s.nextID tag hfresh]
  rw [hmain]
  refine ⟨rfl, rfl, rfl, rfl, rfl, rfl, ?_⟩
  intro tag₂ results₂ hok₂
  obtain ⟨hr1, _, _, hr4⟩ := subscribe_all_ok key
    { s with
        nextID := s.nextID + 1,
        setup := false,
        handlers := s.handlers,
        setupErr := some ("aggregator [" ++ key ++ "]: " ++ e) }
    tag₂ results₂ rfl hok₂
  exact ⟨hr1, hr4⟩

/-- C6 witness: the rollback theorem at a concrete failing second feed on a
fresh state. -/
theorem c6_witness :
    (Subscribe "BTCUSDT:1m" initSymState 0
      [Except.ok 7, Except.error "boom"]).2.1 =
      Except.error ("aggregator [BTCUSDT:1m]: boom") :=
  (c6_subscribe_rollback "BTCUSDT:1m" initSymState 0 [Except.ok 7] [] "boom"
    rfl (by intro h hh; cases hh)
    (by
      intro r hr
      rcases List.mem_singleton.1 hr with rfl
      exact ⟨7, rfl⟩)).1

/- ── C1 ── -/

theorem merge_isClosed_all (l : List (String × Candle)) :
    (merge l).IsClosed = false := by
  cases l with
  | nil => rfl
  | cons e rest =>
      obtain ⟨x, c0⟩ := e
      rfl

theorem setClosed_openTime (x : Candle) :
    ({ x with IsClosed := true } : Candle).OpenTime = x.OpenTime := rfl

theorem setClosed_isClosed (x : Candle) :
    ({ x with IsClosed := true } : Candle).IsClosed = true := rfl

theorem handleCandle_step_inv (numEx limit : ℕ) (s : SymState) (c : Candle)
    (w : Int) (hinv : InvW s w) (hw : w ≤ c.OpenTime) :
    InvW (handleCandle numEx limit s c).1 c.OpenTime ∧
    (((handleCandle numEx limit s c).2.map (fun x => x.OpenTime)).Pairwise (· ≤ ·)) ∧
    (∀ o ∈ (handleCandle numEx limit s c).2,
      w ≤ o.OpenTime ∧ o.OpenTime ≤ c.OpenTime) ∧
    ((((handleCandle numEx limit s c).2.filter (fun x => x.IsClosed)).map
      (fun x => x.OpenTime)).Pairwise (· < ·)) ∧
    (∀ o ∈ (handleCandle numEx limit s c).2, o.IsClosed = true →
      o.OpenTime ∉ s.finalized ∧
      o.OpenTime ∈ (handleCandle numEx limit s c).1.finalized) ∧
    (∀ t ∈ s.finalized, t ∈ (handleCandle numEx limit s c).1.finalized) ∧
    (handleCandle numEx limit s c).1.candles =
      ((handleCandle numEx limit s c).2.filter (fun x => x.IsClosed)).foldl
        (fun cs fc => appendAndResize cs fc limit) s.candles := by
  obtain ⟨hpend, hfin_le⟩ := hinv
  by_cases hdrop : c.OpenTime ∈ s.finalized
  · have hweq : c.OpenTime = w := le_antisymm (hfin_le _ hdrop) hw
    rw [handleCandle_drop_eq numEx limit s c hdrop]
    refine ⟨⟨by rw [hweq]; exact hpend, by rw [hweq]; exact hfin_le⟩,
      by simp, by simp, by simp, by simp, fun t ht => ht, rfl⟩
  · have hcont := contains_false_of_not_mem _ _ hdrop
    have hwf : ∀ tp ∈ s.pending, ∀ e ∈ tp.2.perExchange,
        e.2.OpenTime = tp.1 := by
      intro tp htp e he
      rcases hpend with hnil | ⟨p, hsp, _, _, _, hall⟩
      · rw [hnil] at htp
        cases htp
      · rw [hsp] at htp
        have : tp = (w, p) := List.mem_singleton.1 htp
        subst this
        exact hall e he
    have hall_pex : ∀ e ∈ perExNext s.pending c, e.2.OpenTime = c.OpenTime := by
      intro e he
      unfold perExNext at he
      rcases mem_updateAssocS _ _ _ _ he with rfl | hel
      · rfl
      · exact pendingAt_openTimes s c hwf e hel
    have htime : (merge (perExNext s.pending c)).OpenTime = c.OpenTime := by
      unfold perExNext
      exact merge_update_openTime _ _ _ (pendingAt_openTimes s c hwf)
    have hne_pex : perExNext s.pending c ≠ [] := by
      unfold perExNext
      exact updateAssocS_ne_nil _ _ _
    have hclosed_agg : (merge (perExNext s.pending c)).IsClosed = false :=
      merge_isClosed_all _
    rcases hpend with hnil | ⟨p, hsp, hwnf, hagg, hpe_ne, hpe_all⟩
    · -- no pending period
      have hstale : staleOf s.pending c.OpenTime = [] := by
        rw [hnil]
        rfl
      have hkeep : keepOf s.pending c.OpenTime = [] := by
        rw [hnil]
        rfl
      unfold handleCandle
      rw [if_neg hcont]
      dsimp only
      rw [hstale, hkeep]
      simp only [List.map_nil, List.foldl_nil, List.append_nil, List.nil_append,
        List.filter_nil]
      by_cases hbr : (closedByNext s.pending c).length = numEx
      · rw [if_pos hbr]
        dsimp only
        refine ⟨⟨Or.inl rfl, ?_⟩, by simp, ?_, ?_, ?_, ?_, ?_⟩
        · intro t ht
          rcases List.mem_append.1 ht with hl | hr
          · exact le_trans (hfin_le t hl) hw
          · rw [List.mem_singleton.1 hr]
        · intro o ho
          rw [List.mem_singleton.1 ho, setClosed_openTime, htime]
          exact ⟨hw, le_refl _⟩
        · simp
        · intro o ho _
          rw [List.mem_singleton.1 ho, setClosed_openTime, htime]
          exact ⟨hdrop, List.mem_append_right _ (List.mem_singleton.2 rfl)⟩
        · intro t ht
          exact List.mem_append_left _ ht
        · simp [List.filter, setClosed_isClosed]
      · rw [if_neg hbr]
        dsimp only
        refine ⟨⟨Or.inr ⟨⟨merge (perExNext s.pending c), perExNext s.pending c,
            closedByNext s.pending c⟩, rfl, hdrop, htime, hne_pex, hall_pex⟩, ?_⟩,
          by simp, ?_, ?_, ?_, fun t ht => ht, ?_⟩
        · intro t ht
          exact le_trans (hfin_le t ht) hw
        · intro o ho
          rw [List.mem_singleton.1 ho, htime]
          exact ⟨hw, le_refl _⟩
        · simp [List.filter, hclosed_agg]
        · intro o ho hcl
          rw [List.mem_singleton.1 ho] at hcl
          rw [hclosed_agg] at hcl
          cases hcl
        · simp [List.filter, hclosed_agg]
    · -- one pending period (w, p)
      by_cases hlt : w < c.OpenTime
      · -- stale period: force-close
        have hstale : staleOf s.pending c.OpenTime = [(w, p)] := by
          rw [hsp]
          unfold staleOf
          rw [List.filter_cons_of_pos (by simpa using hlt), List.filter_nil]
        have hkeep : keepOf s.pending c.OpenTime = [] := by
          rw [hsp]
          unfold keepOf
          rw [List.filter_cons_of_neg (by simpa using hlt), List.filter_nil]
        unfold handleCandle
        rw [if_neg hcont]
        dsimp only
        rw [hstale, hkeep]
        simp only [List.map_cons, List.map_nil, List.foldl_cons, List.foldl_nil,
          List.nil_append, List.singleton_append]
        by_cases hbr : (closedByNext s.pending c).length = numEx
        · rw [if_pos hbr]
          dsimp only
          simp only [List.filter_nil]
          refine ⟨⟨Or.inl rfl, ?_⟩, ?_, ?_, ?_, ?_, ?_, ?_⟩
          · intro t ht
            rcases List.mem_append.1 ht with hl | hr
            · rcases List.mem_append.1 hl with hll | hlr
              · exact le_trans (hfin_le t hll) hw
              · rw [List.mem_singleton.1 hlr]
                exact hlt.le
            · rw [List.mem_singleton.1 hr]
          · rw [List.map_cons, List.map_cons, List.map_nil]
            refine List.pairwise_cons.2 ⟨?_, by simp⟩
            intro b hb
            rw [List.mem_singleton.1 hb]
            dsimp only
            rw [setClosed_openTime, setClosed_openTime, hagg, htime]
            exact hlt.le
          · intro o ho
            rcases List.mem_cons.1 ho with rfl | ho
            · rw [setClosed_openTime, hagg]
              exact ⟨le_refl _, hlt.le⟩
            · rw [List.mem_singleton.1 ho, setClosed_openTime, htime]
              exact ⟨hw, le_refl _⟩
          · rw [List.filter_cons_of_pos (setClosed_isClosed _),
              List.filter_cons_of_pos (setClosed_isClosed _), List.filter_nil,
              List.map_cons, List.map_cons, List.map_nil]
            refine List.pairwise_cons.2 ⟨?_, by simp⟩
            intro b hb
            rw [List.mem_singleton.1 hb]
            dsimp only
            rw [setClosed_openTime, setClosed_openTime, hagg, htime]
            exact hlt
          · intro o ho hcl
            rcases List.mem_cons.1 ho with rfl | ho
            · rw [setClosed_openTime, hagg]
              exact ⟨hwnf, List.mem_append_left _
                (List.mem_append_right _ (List.mem_singleton.2 rfl))⟩
            · rw [List.mem_singleton.1 ho, setClosed_openTime, htime]
              exact ⟨hdrop, List.mem_append_right _ (List.mem_singleton.2 rfl)⟩
          · intro t ht
            exact List.mem_append_left _ (List.mem_append_left _ ht)
          · rw [List.filter_cons_of_pos (setClosed_isClosed _),
              List.filter_cons_of_pos (setClosed_isClosed _), List.filter_nil]
            simp only [List.foldl_cons, List.foldl_nil]
        · rw [if_neg hbr]
          dsimp only
          refine ⟨⟨Or.inr ⟨⟨merge (perExNext s.pending c), perExNext s.pending c,
              closedByNext s.pending c⟩, rfl,
              ?_, htime, hne_pex, hall_pex⟩, ?_⟩, ?_, ?_, ?_, ?_, ?_, ?_⟩
          · intro hmem
            rcases List.mem_append.1 hmem with hl | hr
            · exact hdrop hl
            · exact absurd (List.mem_singleton.1 hr) hlt.ne'
          · intro t ht
            rcases List.mem_append.1 ht with hl | hr
            · exact le_trans (hfin_le t hl) hw
            · rw [List.mem_singleton.1 hr]
              exact hlt.le
          · rw [List.map_cons, List.map_cons, List.map_nil]
            refine List.pairwise_cons.2 ⟨?_, by simp⟩
            intro b hb
            rw [List.mem_singleton.1 hb]
            dsimp only
            rw [setClosed_openTime, hagg, htime]
            exact hlt.le
          · intro o ho
            rcases List.mem_cons.1 ho with rfl | ho
            · rw [setClosed_openTime, hagg]
              exact ⟨le_refl _, hlt.le⟩
            · rw [List.mem_singleton.1 ho, htime]
              exact ⟨hw, le_refl _⟩
          · rw [List.filter_cons_of_pos (setClosed_isClosed _),
              List.filter_cons_of_neg (by rw [hclosed_agg]; exact Bool.false_ne_true),
              List.filter_nil, List.map_cons, List.map_nil]
            exact List.pairwise_singleton _ _
          · intro o ho hcl
            rcases List.mem_cons.1 ho with rfl | ho
            · rw [setClosed_openTime, hagg]
              exact ⟨hwnf, List.mem_append_right _ (List.mem_singleton.2 rfl)⟩
            · rw [List.mem_singleton.1 ho] at hcl
              rw [hclosed_agg] at hcl
              cases hcl
          · intro t ht
            exact List.mem_append_left _ ht
          · rw [List.filter_cons_of_pos (setClosed_isClosed _),
              List.filter_cons_of_neg (by rw [hclosed_agg]; exact Bool.false_ne_true),
              List.filter_nil, List.foldl_cons, List.foldl_nil]
      · -- the pending period is the incoming one: w = c.OpenTime
        have heq : w = c.OpenTime := le_antisymm hw (not_lt.1 hlt)
        subst heq
        have hstale : staleOf s.pending c.OpenTime = [] := by
          rw [hsp]
          unfold staleOf
          rw [List.filter_cons_of_neg (by simp), List.filter_nil]
        have hkeep : keepOf s.pending c.OpenTime = [(c.OpenTime, p)] := by
          rw [hsp]
          unfold keepOf
          rw [List.filter_cons_of_pos (by simp), List.filter_nil]
        unfold handleCandle
        rw [if_neg hcont]
        dsimp only
        rw [hstale, hkeep]
        simp only [List.map_nil, List.foldl_nil, List.append_nil, List.nil_append]
        by_cases hbr : (closedByNext s.pending c).length = numEx
        · rw [if_pos hbr]
          dsimp only
          refine ⟨⟨Or.inl (by simp), ?_⟩, by simp, ?_, ?_, ?_, ?_, ?_⟩
          · intro t ht
            rcases List.mem_append.1 ht with hl | hr
            · exact hfin_le t hl
            · rw [List.mem_singleton.1 hr]
          · intro o ho
            rw [List.mem_singleton.1 ho, setClosed_openTime, htime]
            exact ⟨le_refl _, le_refl _⟩
          · rw [List.filter_cons_of_pos (setClosed_isClosed _), List.filter_nil,
              List.map_cons, List.map_nil]
            exact List.pairwise_singleton _ _
          · intro o ho _
            rw [List.mem_singleton.1 ho, setClosed_openTime, htime]
            exact ⟨hdrop, List.mem_append_right _ (List.mem_singleton.2 rfl)⟩
          · intro t ht
            exact List.mem_append_left _ ht
          · rw [List.filter_cons_of_pos (setClosed_isClosed _), List.filter_nil,
              List.foldl_cons, List.foldl_nil]
        · rw [if_neg hbr]
          dsimp only
          refine ⟨⟨Or.inr ⟨⟨merge (perExNext s.pending c), perExNext s.pending c,
              closedByNext s.pending c⟩, by simp [updateAssocI],
              hdrop, htime, hne_pex, hall_pex⟩, hfin_le⟩,
            by simp, ?_, ?_, ?_, fun t ht => ht, ?_⟩
          · intro o ho
            rw [List.mem_singleton.1 ho, htime]
            exact ⟨le_refl _, le_refl _⟩
          · rw [List.filter_cons_of_neg (by rw [hclosed_agg]; exact Bool.false_ne_true),
              List.filter_nil, List.map_nil]
            exact List.Pairwise.nil
          · intro o ho hcl
            rw [List.mem_singleton.1 ho] at hcl
            rw [hclosed_agg] at hcl
            cases hcl
          · rw [List.filter_cons_of_neg (by rw [hclosed_agg]; exact Bool.false_ne_true),
              List.filter_nil, List.foldl_nil]


theorem Step_inv {numEx limit : ℕ} {s : SymState} {c : Candle}
    {r : SymState × List Candle} (h : Step numEx limit s c r) :
    ∃ pend, s.pending.Perm pend ∧
      r = handleCandle numEx limit { s with pending := pend } c := by
  cases h with
  | mk a b =>
      rename_i hp
      exact ⟨a, hp, rfl⟩

theorem run_inv (numEx limit : ℕ) (cs : List Candle) (s : SymState)
    (s₀ : SymState) (outs : List Candle)
    (hrun : Run numEx limit s cs s₀ outs) :
    ∀ w : Int, InvW s w →
      List.Chain' (· ≤ ·) (w :: cs.map (fun x => x.OpenTime)) →
      ∃ w', InvW s₀ w' ∧ w ≤ w' ∧
        ((outs.map (fun x => x.OpenTime)).Pairwise (· ≤ ·)) ∧
        (∀ o ∈ outs, w ≤ o.OpenTime ∧ o.OpenTime ≤ w') ∧
        (((outs.filter (fun x => x.IsClosed)).map
          (fun x => x.OpenTime)).Pairwise (· < ·)) ∧
        (∀ o ∈ outs, o.IsClosed = true →
          o.OpenTime ∈ s₀.finalized ∧ o.OpenTime ∉ s.finalized) ∧
        (∀ t ∈ s.finalized, t ∈ s₀.finalized) ∧
        s₀.candles = (outs.filter (fun x => x.IsClosed)).foldl
          (fun cs fc => appendAndResize cs fc limit) s.candles := by
  induction hrun with
  | nil s =>
      intro w hinv _
      exact ⟨w, hinv, le_refl w, by simp, by simp, by simp, by simp,
        fun t ht => ht, rfl⟩
  | cons s c s₁ out rest s₂ outs hstep hrun ih =>
      intro w hinv hchain
      rw [List.map_cons] at hchain
      have hw : w ≤ c.OpenTime := (List.chain'_cons.1 hchain).1
      have hchain₂ : List.Chain' (· ≤ ·)
          (c.OpenTime :: rest.map (fun x => x.OpenTime)) :=
        (List.chain'_cons.1 hchain).2
      obtain ⟨pend, hperm, heq⟩ := Step_inv hstep
      have hpend_eq : pend = s.pending := by
        rcases hinv.1 with hnil | ⟨p, hsp, _⟩
        · rw [hnil] at hperm
          rw [hnil]
          exact List.perm_nil.1 hperm.symm
        · rw [hsp] at hperm
          rw [hsp]
          exact (List.singleton_perm.1 hperm).symm
      have hs_eq : ({ s with pending := pend } : SymState) = s := by
        rw [hpend_eq]
      rw [hs_eq] at heq
      have h₁ : s₁ = (handleCandle numEx limit s c).1 := congrArg Prod.fst heq
      have h₂ : out = (handleCandle numEx limit s c).2 := congrArg Prod.snd heq
      subst h₁
      subst h₂
      obtain ⟨hinv₁, hpw₁, hbound₁, hpwc₁, hcf₁, hmono₁, hcand₁⟩ :=
        handleCandle_step_inv numEx limit s c w hinv hw
      obtain ⟨w₂, hinv₂, hle₂, hpw₂, hbound₂, hpwc₂, hcf₂, hmono₂, hcand₂⟩ :=
        ih c.OpenTime hinv₁ hchain₂
      refine ⟨w₂, hinv₂, le_trans hw hle₂, ?_, ?_, ?_, ?_, ?_, ?_⟩
      · rw [List.map_append, List.pairwise_append]
        refine ⟨hpw₁, hpw₂, ?_⟩
        intro a ha b hb
        rcases List.mem_map.1 ha with ⟨o, ho, rfl⟩
        rcases List.mem_map.1 hb with ⟨o₂, ho₂, rfl⟩
        exact le_trans (hbound₁ o ho).2 (hbound₂ o₂ ho₂).1
      · intro o ho
        rcases List.mem_append.1 ho with hl | hr
        · exact ⟨(hbound₁ o hl).1, le_trans (hbound₁ o hl).2 hle₂⟩
        · exact ⟨le_trans hw (hbound₂ o hr).1, (hbound₂ o hr).2⟩
      · rw [List.filter_append, List.map_append, List.pairwise_append]
        refine ⟨hpwc₁, hpwc₂, ?_⟩
        intro a ha b hb
        rcases List.mem_map.1 ha with ⟨o, ho, rfl⟩
        rcases List.mem_map.1 hb with ⟨o₂, ho₂, rfl⟩
        have ho' := List.mem_filter.1 ho
        have ho₂' := List.mem_filter.1 ho₂
        have hfa := hcf₁ o ho'.1 (by simpa using ho'.2)
        have hfb := hcf₂ o₂ ho₂'.1 (by simpa using ho₂'.2)
        refine lt_of_le_of_ne
          (le_trans (hbound₁ o ho'.1).2 (hbound₂ o₂ ho₂'.1).1) ?_
        intro heqt
        exact hfb.2 (heqt ▸ hfa.2)
      · intro o ho hcl
        rcases List.mem_append.1 ho with hl | hr
        · exact ⟨hmono₂ _ (hcf₁ o hl hcl).2, (hcf₁ o hl hcl).1⟩
        · exact ⟨(hcf₂ o hr hcl).1, fun hmem => (hcf₂ o hr hcl).2 (hmono₁ _ hmem)⟩
      · exact fun t ht => hmono₂ _ (hmono₁ _ ht)
      · rw [hcand₂, hcand₁, List.filter_append, List.foldl_append]


/-- C1, counterexample: the claim fails for non-monotone arrival orders.
The trace A(3000), B(2000), A(4000) — legal, since each exchange's own
stream is monotone — leaves periods 3000 and 2000 pending; the arrival for
4000 force-closes them in pending-map iteration order, appending openTimes
[3000, 2000] to history and publishing closed candles in that order, which
is not strictly increasing. -/
theorem c1_counterexample :
    Run 2 365 initSymState
      [mkC "A" 3000 "10" "9" "1" false, mkC "B" 2000 "10" "9" "1" false,
       mkC "A" 4000 "10" "9" "1" false]
      cxRun3.1 (cxRun1.2 ++ (cxRun2.2 ++ (cxRun3.2 ++ []))) ∧
    ((cxRun1.2 ++ (cxRun2.2 ++ (cxRun3.2 ++ []))).filter
        (fun x : Candle => x.IsClosed)).map
      (fun x : Candle => x.OpenTime) = [3000, 2000] ∧
    cxRun3.1.candles.map (fun x : Candle => x.OpenTime) = [3000, 2000] ∧
    ¬ (([3000, 2000] : List Int).Pairwise (· < ·)) := by
  refine ⟨?_, by decide, by decide, ?_⟩
  · refine Run.cons _ _ _ _ _ _ _ (Step.mk _ _ _ (List.Perm.refl _)) ?_
    refine Run.cons _ _ _ _ _ _ _ (Step.mk _ _ _ (List.Perm.refl _)) ?_
    refine Run.cons _ _ _ _ _ _ _ (Step.mk _ _ _ (List.Perm.refl _)) ?_
    exact Run.nil _
  · intro h
    have := (List.pairwise_cons.1 h).1 2000 (List.mem_cons_self _ _)
    omega

/-- C1, amended: restricted to runs whose candles arrive with non-decreasing
openTimes (any iteration order over the pending map), the openTimes of the
candles appended to history — exactly the published candles with
isClosed = true, as the final conjunct shows — are strictly increasing, and
all published candles have non-decreasing openTime. -/
theorem c1_monotone_amended (numEx limit : ℕ) (cs : List Candle)
    (s₀ : SymState) (outs : List Candle)
    (hmono : (cs.map (fun x => x.OpenTime)).Chain' (· ≤ ·))
    (hrun : Run numEx limit initSymState cs s₀ outs) :
    (((outs.filter (fun x => x.IsClosed)).map
      (fun x => x.OpenTime)).Pairwise (· < ·)) ∧
    ((outs.map (fun x => x.OpenTime)).Pairwise (· ≤ ·)) ∧
    s₀.candles = (outs.filter (fun x => x.IsClosed)).foldl
      (fun cs fc => appendAndResize cs fc limit) [] := by
  cases cs with
  | nil =>
      cases hrun
      exact ⟨List.Pairwise.nil, List.Pairwise.nil, rfl⟩
  | cons c rest =>
      have hinv0 : InvW initSymState c.OpenTime :=
        ⟨Or.inl rfl, by intro t ht; cases ht⟩
      have hchain : List.Chain' (· ≤ ·)
          (c.OpenTime :: (c :: rest).map (fun x => x.OpenTime)) := by
        rw [List.map_cons]
        rw [List.map_cons] at hmono
        exact List.chain'_cons.2 ⟨le_refl _, hmono⟩
      obtain ⟨w', _, _, hpw, _, hpwc, _, _, hcand⟩ :=
        run_inv numEx limit (c :: rest) initSymState s₀ outs hrun
          c.OpenTime hinv0 hchain
      exact ⟨hpwc, hpw, hcand⟩

/-- C1 witness: the amended theorem applied to the concrete monotone trace
A(1000), A(2000). -/
theorem c1_witness :
    (((wRun1.2 ++ (wRun2.2 ++ [])).filter (fun x : Candle => x.IsClosed)).map
      (fun x : Candle => x.OpenTime)).Pairwise (· < ·) :=
  (c1_monotone_amended 2 365
    [mkC "A" 1000 "10" "9" "1" false, mkC "A" 2000 "12" "11" "1" false]
    wRun2.1 (wRun1.2 ++ (wRun2.2 ++ []))
    (by
      have hm : ([mkC "A" 1000 "10" "9" "1" false,
          mkC "A" 2000 "12" "11" "1" false].map (fun x : Candle => x.OpenTime)) =
          [1000, 2000] := by decide
      rw [hm]
      exact List.chain'_cons.2 ⟨by decide, List.chain'_singleton _⟩)
    (Run.cons _ _ _ _ _ _ _ (Step.mk _ _ _ (List.Perm.refl _))
      (Run.cons _ _ _ _ _ _ _ (Step.mk _ _ _ (List.Perm.refl _))
        (Run.nil _)))).1

end Candles
